import Mathlib

/-!
Verification development for the signal-analysis engine of the repository
(`src/analysis_tools.py`).  The Python arrays are modelled as `List ℚ`
(exact rational arithmetic idealises the floating-point computations) and the
numpy primitives used by the engine (`np.mean`, `np.var`, `np.max`, `np.min`,
`np.sort`, `np.percentile`, `np.median`, `np.diff` + `np.where` edge finding,
`np.histogram`) are given exact rational models below.

The single numpy primitive that has no rational model is `np.std`, which is
the real square root of the population variance and is irrational for most
inputs.  Every function of the engine that consumes a standard deviation is
therefore parametrised by an oracle `npStd : List ℚ → ℚ`; theorems quantify
over the oracle (so they in particular cover the true square-root function),
and where the numeric value of the standard deviation matters a hypothesis
pins it down by `0 ≤ npStd w` and `(npStd w) ^ 2 = npVar w`.  Concrete
evaluations instantiate the oracle with a function that agrees with the true
standard deviation at every list on which it is actually evaluated (inputs are
chosen so that those standard deviations are rational).
-/

set_option maxHeartbeats 3200000
set_option maxRecDepth 4096

/-- Python `int(q)` applied to a rational: truncation toward zero. -/
def pyInt (q : ℚ) : ℤ := if 0 ≤ q then ⌊q⌋ else -⌊-q⌋

/-- Model of `np.mean` (division by zero yields the junk value `0`; the engine
only calls it on nonempty arrays). -/
def npMean (l : List ℚ) : ℚ := l.sum / l.length

/-- Model of `np.var`: population variance, the mean of squared deviations. -/
def npVar (l : List ℚ) : ℚ := (l.map (fun x => (x - npMean l) ^ 2)).sum / l.length

/-- Model of `np.max` on a nonempty array (junk value `0` on the empty one). -/
def npMax : List ℚ → ℚ
  | [] => 0
  | a :: r => r.foldl max a

/-- Model of `np.min` on a nonempty array (junk value `0` on the empty one). -/
def npMin : List ℚ → ℚ
  | [] => 0
  | a :: r => r.foldl min a

/-- Model of `np.sort`: ascending sort. -/
def npSort (l : List ℚ) : List ℚ := l.insertionSort (fun a b => a ≤ b)

/-- Model of `np.percentile` with the default linear interpolation method:
the value at fractional position `p / 100 * (n - 1)` of the sorted array. -/
def npPercentile (l : List ℚ) (p : ℚ) : ℚ :=
  let s := npSort l
  let n := s.length
  let pos := p / 100 * ((n : ℚ) - 1)
  let k := (⌊pos⌋).toNat
  let frac := pos - (k : ℚ)
  if k + 1 < n then s.getD k 0 + frac * (s.getD (k + 1) 0 - s.getD k 0) else s.getD k 0

/-- Model of `np.median`, which numpy computes as the 50th percentile with
linear interpolation (the average of the two middle values for even length). -/
def npMedian (l : List ℚ) : ℚ := npPercentile l 50

/-- Indices `i` with `p m[i] m[i+1] = true`, ascending.  This models the
`np.where(np.diff(mask.astype(int)) == d)[0]` idiom of the source: with
`p a b = !a && b` it returns the positions where the first difference is `1`
(rising edges), with `p a b = a && !b` the positions where it is `-1`
(falling edges). -/
def edgeIdx (p : Bool → Bool → Bool) : List Bool → List ℕ
  | [] => []
  | [_] => []
  | a :: b :: rest => (if p a b then [0] else []) ++ (edgeIdx p (b :: rest)).map (· + 1)

/-- Rising-edge predicate: the mask goes from `false` to `true`. -/
def riseP (a b : Bool) : Bool := !a && b

/-- Falling-edge predicate: the mask goes from `true` to `false`. -/
def fallP (a b : Bool) : Bool := a && !b

/-- Event start indices of `AnalysisTools.detect_events`: the raw rising-edge
indices of the mask (note: NOT shifted by one, so an interior start index is
the position just BEFORE the first in-event sample), preceded by `0` when the
mask is already true at the first sample. -/
def eventStarts (m : List Bool) : List ℕ :=
  (if m.getD 0 false then [0] else []) ++ edgeIdx riseP m

/-- Event end indices of `AnalysisTools.detect_events`: the raw falling-edge
indices of the mask (the position of the last in-event sample), followed by
`len - 1` when the mask is true at the last sample. -/
def eventEnds (m : List Bool) : List ℕ :=
  edgeIdx fallP m ++ (if m.getLastD false then [m.length - 1] else [])

/-- Block start indices of `BlockDetector.detect_blocks`: rising-edge indices
shifted by one (the comment in the source says `+1 because diff shifts
indices`), so an interior start is the first in-block sample; preceded by `0`
when the mask starts true. -/
def blockStarts (m : List Bool) : List ℕ :=
  (if m.getD 0 false then [0] else []) ++ (edgeIdx riseP m).map (· + 1)

/-- Block end indices of `BlockDetector.detect_blocks`: falling-edge indices
shifted by one, so an interior end is the first sample AFTER the block;
followed by `len - 1` when the mask ends true. -/
def blockEnds (m : List Bool) : List ℕ :=
  (edgeIdx fallP m).map (· + 1) ++ (if m.getLastD false then [m.length - 1] else [])

/-- Threshold direction of `detect_events` (the source compares the string
argument with the literal `above`). -/
inductive Direction
  | above
  | below
  deriving DecidableEq

/-- Threshold mask of `detect_events`: `data > threshold` or
`data < threshold`. -/
def evMask (dir : Direction) (threshold : ℚ) (data : List ℚ) : List Bool :=
  match dir with
  | .above => data.map (fun x => decide (threshold < x))
  | .below => data.map (fun x => decide (x < threshold))

/-- Proposition form of the mask predicate. -/
def evPred (dir : Direction) (threshold x : ℚ) : Prop :=
  match dir with
  | .above => threshold < x
  | .below => x < threshold

/-- Model of `AnalysisTools.detect_events`.  The result is `none` exactly when
the Python code raises: `mask[0]` raises IndexError on an empty data array,
`time[-1]` raises on an empty time array, and when `time[-1] - time[0] = 0`
the effective sample rate is infinite and `int(...)` raises on the resulting
inf or nan.  Otherwise it returns the `(start_idx, end_idx)` pairs whose
length `end - start` reaches `min_samples`. -/
def detect_events (data time : List ℚ) (threshold : ℚ) (dir : Direction)
    (min_duration : ℚ) : Option (List (ℕ × ℕ)) :=
  if data.length = 0 ∨ time.length = 0 then none
  else if time.getLastD 0 - time.getD 0 0 = 0 then none
  else
    let m := evMask dir threshold data
    let pairs := (eventStarts m).zip (eventEnds m)
    let minSamples := pyInt (min_duration * ((time.length : ℚ) / (time.getLastD 0 - time.getD 0 0)))
    some (pairs.filter (fun p => decide (minSamples ≤ (p.2 : ℤ) - (p.1 : ℤ))))

/-- Model of the scan in `scipy.signal._local_maxima_1d` that stops the
plateau lookahead: starting at `k`, advance while `k < n - 1` and the value
equals `v`.  The fuel argument bounds the recursion; the callers pass the
array length, which always suffices. -/
def plateauEndAux (x : List ℚ) (v : ℚ) : ℕ → ℕ → ℕ
  | k, 0 => k
  | k, fuel + 1 =>
    if k < x.length - 1 ∧ x.getD k 0 = v then plateauEndAux x v (k + 1) fuel else k

/-- The `i_ahead` value of `scipy.signal._local_maxima_1d` for a candidate
peak at `i`: the first position `k ≥ i + 1` with `k = n - 1` or
`x[k] ≠ x[i]`. -/
def plateauEnd (x : List ℚ) (i : ℕ) : ℕ := plateauEndAux x (x.getD i 0) (i + 1) x.length

/-- Model of `scipy.signal._local_maxima_1d`: strict local maxima with plateau
handling, reported at the plateau midpoint `(left + right) / 2` rounded down.
The scipy implementation scans with a skip past each plateau; since a
triggering position `i` has `x[i-1] < x[i]` and all later positions inside
the plateau have equal neighbours, the skip never suppresses a candidate, so
the scan is equivalent to this filter over all positions. -/
def scipyLocalMaxima (x : List ℚ) : List ℕ :=
  (List.range x.length).filterMap (fun i =>
    if 1 ≤ i ∧ i + 1 < x.length ∧ x.getD (i - 1) 0 < x.getD i 0 then
      let ia := plateauEnd x i
      if x.getD ia 0 < x.getD i 0 then some ((i + (ia - 1)) / 2) else none
    else none)

/-- The `height` selection of `scipy.signal.find_peaks`
(`_select_by_property` with a scalar lower bound): keep the peaks whose value
is at least the bound. -/
def selectByHeight (x : List ℚ) (peaks : List ℕ) : Option ℚ → List ℕ
  | none => peaks
  | some h => peaks.filter (fun p => decide (h ≤ x.getD p 0))

/-- Model of `scipy.signal._select_by_peak_distance`: walk the peaks from the
highest sample value downwards and, for each peak still kept, discard every
other peak lying strictly closer than `dist` samples.  scipy suppresses the
close neighbours with two inner while loops that stop at the first
far-enough peak; since the peak indices are ascending the index differences
are monotone on each side, so that is the same as discarding ALL peaks at
distance below `dist`, which is what the map below does.  The processing
order is by `np.argsort` of the peak values; numpy's default argsort is
unstable, so the order among equal values is unspecified there — this model
fixes it with a stable sort (no evaluation below exercises a tie).  The
source declares `distance: Optional[int]`, so the `np.ceil` applied by scipy
is the identity and `dist` is taken as a natural number. -/
def selectByDistance (x : List ℚ) (peaks : List ℕ) (dist : ℕ) : List ℕ :=
  let n := peaks.length
  let prio := fun j => x.getD (peaks.getD j 0) 0
  let order := ((List.range n).mergeSort (fun a b => decide (prio a ≤ prio b))).reverse
  let keep := order.foldl (fun keep j =>
    if keep.getD j false then
      (List.range n).map (fun k =>
        if k = j then true
        else if max (peaks.getD k 0) (peaks.getD j 0) -
            min (peaks.getD k 0) (peaks.getD j 0) < dist then false
        else keep.getD k false)
    else keep) (List.replicate n true)
  ((List.range n).filter (fun j => keep.getD j false)).map (fun j => peaks.getD j 0)

/-- Model of `scipy.signal._peak_prominences` for one peak, with no window
restriction (`wlen = None`, which is what the source implies): on each side
scan away from the peak while the samples stay at or below the peak value,
track the minimum seen (starting from the peak value itself), and subtract
the larger of the two side minima from the peak value. -/
def peakProminence (x : List ℚ) (p : ℕ) : ℚ :=
  let v := x.getD p 0
  let leftMin := ((x.take p).reverse.takeWhile (fun y => decide (y ≤ v))).foldl min v
  let rightMin := ((x.drop (p + 1)).takeWhile (fun y => decide (y ≤ v))).foldl min v
  v - max leftMin rightMin

/-- The `prominence` selection of `scipy.signal.find_peaks`: keep the peaks
whose prominence is at least the scalar bound. -/
def selectByProminence (x : List ℚ) (peaks : List ℕ) : Option ℚ → List ℕ
  | none => peaks
  | some pmin => peaks.filter (fun p => decide (pmin ≤ peakProminence x p))

/-- Model of `scipy.signal.find_peaks` with the `height`, `distance` and
`prominence` conditions (the three the source passes through; `threshold`,
`width` and `plateau_size` are never supplied and stay at their `None`
defaults).  The selections are applied in scipy's order: local maxima,
height, distance, prominence.  scipy raises ValueError for a distance below
1, modelled as `none`. -/
def scipy_find_peaks (x : List ℚ) (height : Option ℚ) (distance : Option ℕ)
    (prominence : Option ℚ) : Option (List ℕ) :=
  match distance with
  | some d =>
    if d < 1 then none
    else
      some (selectByProminence x
        (selectByDistance x (selectByHeight x (scipyLocalMaxima x) height) d) prominence)
  | none =>
    some (selectByProminence x (selectByHeight x (scipyLocalMaxima x) height) prominence)

/-- Container for peak information (dataclass `Peak` of the source). -/
structure Peak where
  index : ℕ
  time : ℚ
  value : ℚ
  is_max : Bool
  deriving DecidableEq

/-- Model of `AnalysisTools.find_peaks`.  For troughs the data is negated and
`distance` and `prominence` are passed through unchanged in both branches;
the height bound is negated only when it is truthy in Python, so a supplied
height of `0` is passed on as `None` and the height condition is dropped.
The result is `none` exactly when the scipy call raises (distance below
1). -/
def find_peaks (data time : List ℚ) (height : Option ℚ) (distance : Option ℕ)
    (prominence : Option ℚ) (find_max : Bool) : Option (List Peak) :=
  let peaks :=
    if find_max then scipy_find_peaks data height distance prominence
    else
      scipy_find_peaks (data.map (fun x => -x))
        (match height with
         | some h => if h = 0 then none else some (-h)
         | none => none) distance prominence
  peaks.map (List.map (fun p =>
    { index := p, time := time.getD p 0, value := data.getD p 0, is_max := find_max }))

/-- Last index at which a boolean list rises from `false` to `true`; models
`np.where(np.diff(mask.astype(int)) == 1)[0][-1]` of `calculate_rise_time`. -/
def lastCrossing (m : List Bool) : Option ℕ := (edgeIdx riseP m).getLast?

/-- Model of `AnalysisTools.calculate_rise_time`.  The boundary guard of the
source is `peak_idx <= 0 or peak_idx >= len(data)`; note that the last valid
index `len(data) - 1` passes this guard. -/
def calculate_rise_time (data time : List ℚ) (peak_idx : ℤ)
    (baseline_percent peak_percent : ℚ) : Option ℚ :=
  if peak_idx ≤ 0 ∨ (data.length : ℤ) ≤ peak_idx then none
  else
    let p := peak_idx.toNat
    let baselineValue := npPercentile (data.take p) baseline_percent
    let peakValue := data.getD p 0
    let targetLow := baselineValue + (peakValue - baselineValue) * (baseline_percent / 100)
    let targetHigh := baselineValue + (peakValue - baselineValue) * (peak_percent / 100)
    let rising := data.take (p + 1)
    let lowC := lastCrossing (rising.map (fun x => decide (targetLow ≤ x)))
    let highC := lastCrossing (rising.map (fun x => decide (targetHigh ≤ x)))
    match lowC, highC with
    | some lo, some hi => if lo < hi then some (time.getD hi 0 - time.getD lo 0) else none
    | _, _ => none

/-- First index at which a boolean list is `true`; models
`np.where(below_target)[0][0]`. -/
def firstTrue : List Bool → Option ℕ
  | [] => none
  | b :: r => if b then some 0 else (firstTrue r).map (· + 1)

/-- Model of `AnalysisTools.calculate_decay_time`.  The boundary guard of the
source is `peak_idx < 0 or peak_idx >= len(data) - 1`; note that `peak_idx =
0` passes this guard whenever the array has at least two samples.  The scan
for a sample below the target starts AT the peak sample itself. -/
def calculate_decay_time (data time : List ℚ) (peak_idx : ℤ)
    (decay_percent : ℚ) : Option ℚ :=
  if peak_idx < 0 ∨ (data.length : ℤ) - 1 ≤ peak_idx then none
  else
    let p := peak_idx.toNat
    let peakValue := data.getD p 0
    let targetValue := peakValue * (1 - decay_percent / 100)
    let decayTime := time.drop p
    match firstTrue ((data.drop p).map (fun x => decide (x < targetValue))) with
    | some j => some (decayTime.getD j 0 - decayTime.getD 0 0)
    | none => none

/-- Result record of `AnalysisTools.calculate_statistics`.  The `std` entry of
the Python dict is the real square root of `variance` and is kept as the
derived quantity `Statistics.std` below. -/
structure Statistics where
  mean : ℚ
  min : ℚ
  max : ℚ
  median : ℚ
  q25 : ℚ
  q75 : ℚ
  range : ℚ
  variance : ℚ
  deriving DecidableEq

/-- The `std` entry of the statistics dict: `np.std` is the real square root
of the population variance. -/
noncomputable def Statistics.std (s : Statistics) : ℝ := Real.sqrt (s.variance : ℝ)

/-- Model of `AnalysisTools.calculate_statistics`. -/
def calculate_statistics (data : List ℚ) : Statistics :=
  { mean := npMean data
    min := npMin data
    max := npMax data
    median := npMedian data
    q25 := npPercentile data 25
    q75 := npPercentile data 75
    range := npMax data - npMin data
    variance := npVar data }

/-- Model of the `np.histogram(data, bins=100)` mode estimate computed (and
then unconditionally overwritten) in `detect_blocks`: the centre of the
fullest of 100 equal-width bins spanning the data range (numpy widens a
degenerate range by half a unit on each side; the last bin is right-closed;
ties go to the first bin, as `np.argmax` does). -/
def histBaseline (data : List ℚ) : ℚ :=
  let lo := npMin data
  let hi := npMax data
  let lo1 := if lo = hi then lo - 1 / 2 else lo
  let hi1 := if lo = hi then hi + 1 / 2 else hi
  let w := (hi1 - lo1) / 100
  let count : ℕ → ℕ := fun j =>
    (data.filter (fun x => decide (lo1 + (j : ℚ) * w ≤ x) &&
      (decide (x < lo1 + ((j : ℚ) + 1) * w) || (decide (j = 99) && decide (x ≤ hi1))))).length
  let maxBin := (List.range 100).foldl (fun best j => if count best < count j then j else best) 0
  (lo1 + (maxBin : ℚ) * w + (lo1 + ((maxBin : ℚ) + 1) * w)) / 2

/-- The baseline estimate that `detect_blocks` actually uses: the median of
the upper half of the sorted data (`sorted_data[len(sorted_data)//2:]`). -/
def upperHalfMedian (data : List ℚ) : ℚ :=
  let sorted := npSort data
  npMedian (sorted.drop (sorted.length / 2))

/-- The baseline amplitude of `detect_blocks`: the supplied threshold when
given, otherwise the upper-half median estimate. -/
def blockBaseline (data : List ℚ) (baseline_threshold : Option ℚ) : ℚ :=
  match baseline_threshold with
  | none => upperHalfMedian data
  | some v => v

/-- Block event record of `BlockDetector.detect_blocks`. -/
structure BlockEvent where
  start_time : ℚ
  end_time : ℚ
  duration : ℚ
  start_idx : ℕ
  end_idx : ℕ
  average_amplitude : ℚ
  baseline_amplitude : ℚ
  block_depth : ℚ
  deriving DecidableEq

/-- The in-block mask of `detect_blocks`, by the sign of the baseline. -/
def blockMask (data : List ℚ) (baseline factor baselineStd : ℚ) : List Bool :=
  if baseline < 0 then
    data.map (fun x => decide (min (baseline + factor * baselineStd) 0 < x) &&
      decide (x < 0) && decide (|x| < |baseline|))
  else if 0 < baseline then
    data.map (fun x => decide (x < max (baseline - factor * baselineStd) 0) &&
      decide (0 < x) && decide (|x| < |baseline|))
  else
    data.map (fun x => decide (|x| < factor * baselineStd))

/-- The start-end pair list of `detect_blocks`: the edge-based starts and
ends together with the mismatch fix-up of the source (pad the shorter list
with the matching array boundary index; the second test compares against the
already-fixed end list, as the source does sequentially). -/
def blockRuns (m : List Bool) (n : ℕ) : List (ℕ × ℕ) :=
  let starts0 := blockStarts m
  let ends0 := blockEnds m
  let ends1 := if ends0.length < starts0.length then ends0 ++ [n - 1] else ends0
  let starts1 := if starts0.length < ends1.length then 0 :: starts0 else starts0
  starts1.zip ends1

/-- The block-event record built for one detected run in `detect_blocks`:
the inclusive slice `data[start : end + 1]` is averaged, so for an interior
run the sample at `end_idx` (the first sample past the mask run) is included
in the average. -/
def buildBlock (data time : List ℚ) (baseline : ℚ) (p : ℕ × ℕ) : BlockEvent :=
  let blockData := (data.drop p.1).take (p.2 + 1 - p.1)
  { start_time := time.getD p.1 0
    end_time := time.getD p.2 0
    duration := time.getD p.2 0 - time.getD p.1 0
    start_idx := p.1
    end_idx := p.2
    average_amplitude := npMean blockData
    baseline_amplitude := baseline
    block_depth := |baseline| - |npMean blockData| }

/-- Model of `BlockDetector.detect_blocks`.  Empty data or time arrays return
the empty list (the source guards this case).  The result is `none` exactly
when the Python code raises: with at least two time samples and
`time[-1] - time[0] = 0`, `int(min_block_duration * sample_rate)` raises on
inf or nan.  The histogram mode estimate is computed and then overwritten by
the upper-half median, exactly as in the source; the unused-variable linter
is silenced for exactly that dead binding. -/
def detect_blocks (npStd : List ℚ → ℚ) (data time : List ℚ) (baseline_threshold : Option ℚ)
    (block_threshold_factor min_block_duration : ℚ) : Option (List BlockEvent) :=
  if data.length = 0 ∨ time.length = 0 then some []
  else
    let baseline :=
      match baseline_threshold with
      | none =>
        let _hist := histBaseline data
        upperHalfMedian data
      | some v => v
    let nearBaseline := data.filter (fun x => decide (|x - baseline| < npStd data * (3 / 2)))
    let baselineStd := if nearBaseline.length < 10 then npStd data else npStd nearBaseline
    let m := blockMask data baseline block_threshold_factor baselineStd
    if 1 < time.length ∧ time.getLastD 0 - time.getD 0 0 = 0 then none
    else
      let sampleRate :=
        if 1 < time.length then (time.length : ℚ) / (time.getLastD 0 - time.getD 0 0) else 1
      let minSamples := pyInt (min_block_duration * sampleRate)
      some (((blockRuns m data.length).filter
          (fun p => decide (minSamples ≤ (p.2 : ℤ) - (p.1 : ℤ)))).map
        (buildBlock data time baseline))

/-- Variant of `detect_blocks` with the dead histogram-mode baseline estimate
deleted; used to state the refinement claim that the histogram computation
has no observable effect. -/
def detect_blocks_nohist (npStd : List ℚ → ℚ) (data time : List ℚ)
    (baseline_threshold : Option ℚ)
    (block_threshold_factor min_block_duration : ℚ) : Option (List BlockEvent) :=
  if data.length = 0 ∨ time.length = 0 then some []
  else
    let baseline :=
      match baseline_threshold with
      | none => upperHalfMedian data
      | some v => v
    let nearBaseline := data.filter (fun x => decide (|x - baseline| < npStd data * (3 / 2)))
    let baselineStd := if nearBaseline.length < 10 then npStd data else npStd nearBaseline
    let m := blockMask data baseline block_threshold_factor baselineStd
    if 1 < time.length ∧ time.getLastD 0 - time.getD 0 0 = 0 then none
    else
      let sampleRate :=
        if 1 < time.length then (time.length : ℚ) / (time.getLastD 0 - time.getD 0 0) else 1
      let minSamples := pyInt (min_block_duration * sampleRate)
      some (((blockRuns m data.length).filter
          (fun p => decide (minSamples ≤ (p.2 : ℤ) - (p.1 : ℤ)))).map
        (buildBlock data time baseline))

/-- Per-sweep data record (the `SweepData` objects consumed by the
BlockDetector entry points). -/
structure SweepData where
  data : List ℚ
  time : List ℚ
  sweep_number : ℕ
  channel : ℕ
  deriving DecidableEq

/-- Insert record of `BlockDetector.detect_inserts`.  The `sweep` field is
the enumeration index of the sweep in the input list. -/
structure InsertRecord where
  sweep : ℕ
  baseline_mean : ℚ
  baseline_std : ℚ
  response_mean : ℚ
  response_max : ℚ
  response_min : ℚ
  deviation : ℚ
  deriving DecidableEq

/-- Lower window index of `detect_inserts` for a window fraction: the
truncated fractional position clamped below by `0`. -/
def winLoIdx (sw : SweepData) (frac : ℚ) : ℤ :=
  max 0 (pyInt (frac * (sw.data.length : ℚ)))

/-- Upper window index of `detect_inserts` for a window fraction: the
truncated fractional position clamped above by the data length. -/
def winHiIdx (sw : SweepData) (frac : ℚ) : ℤ :=
  min (sw.data.length : ℤ) (pyInt (frac * (sw.data.length : ℚ)))

/-- The Python slice `data[lo : hi]` for the already-clamped window bounds. -/
def windowSlice (d : List ℚ) (lo hi : ℤ) : List ℚ :=
  (d.drop lo.toNat).take (hi - lo).toNat

/-- The per-sweep body of the loop of `detect_inserts`: window indices are the
truncated fractional positions clamped to `[0, len]`; a sweep whose baseline
or response window collapses (end index at most start index) is skipped;
otherwise the sweep is flagged when the deviation of the response extremes
from the baseline mean exceeds `|baseline_mean| + factor * baseline_std`. -/
def processSweep (npStd : List ℚ → ℚ) (baseline_start baseline_end response_start
    response_end threshold_factor : ℚ) (i : ℕ) (sw : SweepData) : Option InsertRecord :=
  let bsIdx := winLoIdx sw baseline_start
  let beIdx := winHiIdx sw baseline_end
  let rsIdx := winLoIdx sw response_start
  let reIdx := winHiIdx sw response_end
  if beIdx ≤ bsIdx ∨ reIdx ≤ rsIdx then none
  else
    let bData := windowSlice sw.data bsIdx beIdx
    let rData := windowSlice sw.data rsIdx reIdx
    let bMean := npMean bData
    let bStd := npStd bData
    let deviation := max (|npMax rData - bMean|) (|npMin rData - bMean|)
    if |bMean| + threshold_factor * bStd < deviation then
      some { sweep := i, baseline_mean := bMean, baseline_std := bStd,
             response_mean := npMean rData, response_max := npMax rData,
             response_min := npMin rData, deviation := deviation }
    else none

/-- Model of `BlockDetector.detect_inserts`: enumerate the sweeps and collect
the flagged records. -/
def detect_inserts (npStd : List ℚ → ℚ) (sweeps : List SweepData)
    (baseline_start baseline_end response_start response_end threshold_factor : ℚ) :
    List InsertRecord :=
  if sweeps.length = 0 then []
  else sweeps.enum.filterMap (fun p =>
    processSweep npStd baseline_start baseline_end response_start response_end
      threshold_factor p.1 p.2)

theorem edgeIdx_nil (p : Bool → Bool → Bool) : edgeIdx p [] = [] := rfl

theorem edgeIdx_single (p : Bool → Bool → Bool) (a : Bool) : edgeIdx p [a] = [] := rfl

theorem edgeIdx_cons2 (p : Bool → Bool → Bool) (a b : Bool) (r : List Bool) :
    edgeIdx p (a :: b :: r) = (if p a b then [0] else []) ++ (edgeIdx p (b :: r)).map (· + 1) :=
  rfl

/-- Membership in `edgeIdx` certifies the edge predicate at that position and
that the successor position is inside the list. -/
theorem mem_edgeIdx {p : Bool → Bool → Bool} :
    ∀ {m : List Bool} {i : ℕ}, i ∈ edgeIdx p m →
      p (m.getD i false) (m.getD (i + 1) false) = true ∧ i + 1 < m.length := by
  intro m
  induction m with
  | nil => intro i h; simp [edgeIdx_nil] at h
  | cons a t ih =>
    cases t with
    | nil => intro i h; simp [edgeIdx_single] at h
    | cons b r =>
      intro i h
      rw [edgeIdx_cons2, List.mem_append] at h
      rcases h with h1 | h2
      · have hp : p a b = true := by
          by_cases hp : p a b
          · exact hp
          · simp [hp] at h1
        have hi : i = 0 := by simpa [hp] using h1
        subst hi
        refine ⟨by simpa using hp, ?_⟩
        simp [List.length_cons]
      · obtain ⟨j, hj, rfl⟩ := List.mem_map.1 h2
        obtain ⟨h1, h2⟩ := ih hj
        exact ⟨by simpa [List.getD_cons_succ] using h1, by simpa [List.length_cons] using h2⟩

theorem edgeIdx_sorted (p : Bool → Bool → Bool) :
    ∀ m : List Bool, (edgeIdx p m).Pairwise (· < ·) := by
  intro m
  induction m with
  | nil => simp [edgeIdx_nil]
  | cons a t ih =>
    cases t with
    | nil => simp [edgeIdx_single]
    | cons b r =>
      rw [edgeIdx_cons2]
      refine List.pairwise_append.2 ⟨?_, ?_, ?_⟩
      · by_cases hp : p a b <;> simp [hp]
      · exact (List.pairwise_map).2 (ih.imp (by omega))
      · intro x hx y hy
        have hx0 : x = 0 := by
          by_cases hp : p a b
          · simpa [hp] using hx
          · simp [hp] at hx
        obtain ⟨j, _, rfl⟩ := List.mem_map.1 hy
        omega

theorem blockStarts_nil : blockStarts [] = [] := rfl

theorem blockEnds_nil : blockEnds [] = [] := rfl

theorem blockStarts_single (a : Bool) : blockStarts [a] = if a then [0] else [] := by
  cases a <;> rfl

theorem blockEnds_single (a : Bool) : blockEnds [a] = if a then [0] else [] := by
  cases a <;> rfl

theorem blockStarts_cons_false (b : Bool) (r : List Bool) :
    blockStarts (false :: b :: r) = (blockStarts (b :: r)).map (· + 1) := by
  cases b <;>
    simp [blockStarts, edgeIdx_cons2, riseP, List.map_map, Function.comp]

theorem blockEnds_cons_false (b : Bool) (r : List Bool) :
    blockEnds (false :: b :: r) = (blockEnds (b :: r)).map (· + 1) := by
  cases hl : (b :: r).getLastD false <;>
    simp [blockEnds, edgeIdx_cons2, fallP, List.map_map, Function.comp, List.getLastD_cons,
      List.length_cons] <;>
    simp [List.getLastD_cons] at hl <;>
    cases b <;> simp_all [fallP]

theorem blockStarts_true_false (r : List Bool) :
    blockStarts (true :: false :: r) = 0 :: (blockStarts (false :: r)).map (· + 1) := by
  simp [blockStarts, edgeIdx_cons2, riseP, List.map_map, Function.comp]

theorem blockEnds_true_false (r : List Bool) :
    blockEnds (true :: false :: r) = 1 :: (blockEnds (false :: r)).map (· + 1) := by
  cases hl : (false :: r).getLastD false <;>
    simp [blockEnds, edgeIdx_cons2, fallP, List.map_map, Function.comp, List.getLastD_cons,
      List.length_cons] <;>
    simp [List.getLastD_cons] at hl <;> simp_all

theorem blockStarts_true_true (r : List Bool) :
    blockStarts (true :: true :: r) = 0 :: ((blockStarts (true :: r)).map (· + 1)).tail := by
  simp [blockStarts, edgeIdx_cons2, riseP, List.map_map, Function.comp]

theorem blockEnds_true_true (r : List Bool) :
    blockEnds (true :: true :: r) = (blockEnds (true :: r)).map (· + 1) := by
  cases hl : (true :: r).getLastD false <;>
    simp [blockEnds, edgeIdx_cons2, fallP, List.map_map, Function.comp, List.getLastD_cons,
      List.length_cons] <;>
    simp [List.getLastD_cons] at hl <;> simp_all

theorem eventStarts_nil : eventStarts [] = [] := rfl

theorem eventEnds_nil : eventEnds [] = [] := rfl

theorem eventStarts_single (a : Bool) : eventStarts [a] = if a then [0] else [] := by
  cases a <;> rfl

theorem eventEnds_single (a : Bool) : eventEnds [a] = if a then [0] else [] := by
  cases a <;> rfl

theorem eventStarts_false_false (r : List Bool) :
    eventStarts (false :: false :: r) = (eventStarts (false :: r)).map (· + 1) := by
  simp [eventStarts, edgeIdx_cons2, riseP]

theorem eventStarts_false_true (r : List Bool) :
    eventStarts (false :: true :: r) = 0 :: ((eventStarts (true :: r)).map (· + 1)).tail := by
  simp [eventStarts, edgeIdx_cons2, riseP]

theorem eventStarts_true_false (r : List Bool) :
    eventStarts (true :: false :: r) = 0 :: (eventStarts (false :: r)).map (· + 1) := by
  simp [eventStarts, edgeIdx_cons2, riseP]

theorem eventStarts_true_true (r : List Bool) :
    eventStarts (true :: true :: r) = 0 :: ((eventStarts (true :: r)).map (· + 1)).tail := by
  simp [eventStarts, edgeIdx_cons2, riseP]

theorem eventEnds_cons_false (b : Bool) (r : List Bool) :
    eventEnds (false :: b :: r) = (eventEnds (b :: r)).map (· + 1) := by
  cases hl : (b :: r).getLastD false <;>
    simp [eventEnds, edgeIdx_cons2, fallP, List.getLastD_cons, List.length_cons] <;>
    simp [List.getLastD_cons] at hl <;>
    cases b <;> simp_all [fallP]

theorem eventEnds_true_false (r : List Bool) :
    eventEnds (true :: false :: r) = 0 :: (eventEnds (false :: r)).map (· + 1) := by
  cases hl : (false :: r).getLastD false <;>
    simp [eventEnds, edgeIdx_cons2, fallP, List.getLastD_cons, List.length_cons] <;>
    simp [List.getLastD_cons] at hl <;> simp_all

theorem eventEnds_true_true (r : List Bool) :
    eventEnds (true :: true :: r) = (eventEnds (true :: r)).map (· + 1) := by
  cases hl : (true :: r).getLastD false <;>
    simp [eventEnds, edgeIdx_cons2, fallP, List.getLastD_cons, List.length_cons] <;>
    simp [List.getLastD_cons] at hl <;> simp_all

theorem eventStarts_head_true (m : List Bool) (h : m.getD 0 false = true) :
    eventStarts m = 0 :: edgeIdx riseP m := by
  have h2 : m[0]?.getD false = true := by simpa [List.getD] using h
  simp [eventStarts, List.getD, h2]

theorem blockStarts_head_true (m : List Bool) (h : m.getD 0 false = true) :
    blockStarts m = 0 :: (edgeIdx riseP m).map (· + 1) := by
  have h2 : m[0]?.getD false = true := by simpa [List.getD] using h
  simp [blockStarts, List.getD, h2]

theorem eventEnds_ne_nil_of_head_true :
    ∀ m : List Bool, m.getD 0 false = true → eventEnds m ≠ [] := by
  intro m
  induction m with
  | nil => intro h; simp at h
  | cons a t ih =>
    intro h
    have ha : a = true := by simpa using h
    subst ha
    cases t with
    | nil => simp [eventEnds_single]
    | cons b r =>
      cases b with
      | false => simp [eventEnds_true_false]
      | true =>
        rw [eventEnds_true_true]
        simpa using ih (by simp)

/-- Fundamental soundness of the edge-based run extraction of `detect_blocks`:
for every start and end paired by `zip`, the mask is true on the half-open
interval from the start index up to (but excluding) the end index. -/
theorem blocks_mask_true :
    ∀ (m : List Bool) (s e : ℕ), (s, e) ∈ (blockStarts m).zip (blockEnds m) →
      ∀ i, s ≤ i → i < e → m.getD i false = true := by
  intro m
  induction m with
  | nil => intro s e h; rw [blockStarts_nil, blockEnds_nil] at h; simp at h
  | cons a t ih =>
    cases t with
    | nil =>
      intro s e h i h1 h2
      cases a with
      | false => rw [blockStarts_single, blockEnds_single] at h; simp at h
      | true =>
        rw [blockStarts_single, blockEnds_single] at h
        simp at h
        omega
    | cons b r =>
      cases a with
      | false =>
        intro s e h i h1 h2
        rw [blockStarts_cons_false, blockEnds_cons_false, List.zip_map] at h
        obtain ⟨⟨s0, e0⟩, hmem, heq⟩ := List.mem_map.1 h
        have hs : s = s0 + 1 := by
          have h3 := congrArg Prod.fst heq
          simpa [Prod.map] using h3.symm
        have he : e = e0 + 1 := by
          have h3 := congrArg Prod.snd heq
          simpa [Prod.map] using h3.symm
        subst hs
        subst he
        obtain ⟨j, rfl⟩ : ∃ j, i = j + 1 := ⟨i - 1, by omega⟩
        rw [List.getD_cons_succ]
        exact ih s0 e0 hmem j (by omega) (by omega)
      | true =>
        cases b with
        | false =>
          intro s e h i h1 h2
          rw [blockStarts_true_false, blockEnds_true_false, List.zip_cons_cons] at h
          rcases List.mem_cons.1 h with hhead | htail
          · simp only [Prod.mk.injEq] at hhead
            obtain ⟨rfl, rfl⟩ := hhead
            have h0 : i = 0 := by omega
            subst h0
            rfl
          · rw [List.zip_map] at htail
            obtain ⟨⟨s0, e0⟩, hmem, heq⟩ := List.mem_map.1 htail
            have hs : s = s0 + 1 := by
              have h3 := congrArg Prod.fst heq
              simpa [Prod.map] using h3.symm
            have he : e = e0 + 1 := by
              have h3 := congrArg Prod.snd heq
              simpa [Prod.map] using h3.symm
            subst hs
            subst he
            obtain ⟨j, rfl⟩ : ∃ j, i = j + 1 := ⟨i - 1, by omega⟩
            rw [List.getD_cons_succ]
            exact ih s0 e0 hmem j (by omega) (by omega)
        | true =>
          intro s e h i h1 h2
          rw [blockStarts_true_true, blockEnds_true_true,
            blockStarts_head_true (true :: r) rfl] at h
          simp only [List.map_cons, List.tail_cons] at h
          cases hE : blockEnds (true :: r) with
          | nil => rw [hE] at h; simp at h
          | cons e0 es =>
            rw [hE] at h
            simp only [List.map_cons, List.zip_cons_cons] at h
            have hpair : (0, e0) ∈ (blockStarts (true :: r)).zip (blockEnds (true :: r)) := by
              rw [blockStarts_head_true (true :: r) rfl, hE, List.zip_cons_cons]
              exact List.mem_cons_self _ _
            rcases List.mem_cons.1 h with hhead | htail
            · simp only [Prod.mk.injEq] at hhead
              obtain ⟨rfl, rfl⟩ := hhead
              cases i with
              | zero => rfl
              | succ j =>
                rw [List.getD_cons_succ]
                exact ih 0 e0 hpair j (by omega) (by omega)
            · rw [List.zip_map] at htail
              obtain ⟨⟨s0, e0x⟩, hmem, heq⟩ := List.mem_map.1 htail
              have hs : s = s0 + 1 := by
                have h3 := congrArg Prod.fst heq
                simpa [Prod.map] using h3.symm
              have he : e = e0x + 1 := by
                have h3 := congrArg Prod.snd heq
                simpa [Prod.map] using h3.symm
              subst hs
              subst he
              have hmem2 : (s0, e0x) ∈ (blockStarts (true :: r)).zip (blockEnds (true :: r)) := by
                rw [blockStarts_head_true (true :: r) rfl, hE, List.zip_cons_cons]
                exact List.mem_cons_of_mem _ hmem
              obtain ⟨j, rfl⟩ : ∃ j, i = j + 1 := ⟨i - 1, by omega⟩
              rw [List.getD_cons_succ]
              exact ih s0 e0x hmem2 j (by omega) (by omega)

/-- Soundness of the edge-based run extraction of `detect_events`: for every
start and end paired by `zip`, the mask is true strictly after the start
index and up to (and including) the end index.  The start index itself is
excluded because the rising-edge index is the position just before the first
in-event sample. -/
theorem events_mask_true :
    ∀ (m : List Bool) (s e : ℕ), (s, e) ∈ (eventStarts m).zip (eventEnds m) →
      ∀ i, s < i → i ≤ e → m.getD i false = true := by
  intro m
  induction m with
  | nil => intro s e h; rw [eventStarts_nil, eventEnds_nil] at h; simp at h
  | cons a t ih =>
    cases t with
    | nil =>
      intro s e h i h1 h2
      cases a with
      | false => rw [eventStarts_single, eventEnds_single] at h; simp at h
      | true =>
        rw [eventStarts_single, eventEnds_single] at h
        simp at h
        omega
    | cons b r =>
      cases a with
      | false =>
        cases b with
        | false =>
          intro s e h i h1 h2
          rw [eventStarts_false_false, eventEnds_cons_false, List.zip_map] at h
          obtain ⟨⟨s0, e0⟩, hmem, heq⟩ := List.mem_map.1 h
          have hs : s = s0 + 1 := by
            have h3 := congrArg Prod.fst heq
            simpa [Prod.map] using h3.symm
          have he : e = e0 + 1 := by
            have h3 := congrArg Prod.snd heq
            simpa [Prod.map] using h3.symm
          subst hs
          subst he
          obtain ⟨j, rfl⟩ : ∃ j, i = j + 1 := ⟨i - 1, by omega⟩
          rw [List.getD_cons_succ]
          exact ih s0 e0 hmem j (by omega) (by omega)
        | true =>
          intro s e h i h1 h2
          rw [eventStarts_false_true, eventEnds_cons_false,
            eventStarts_head_true (true :: r) rfl] at h
          simp only [List.map_cons, List.tail_cons] at h
          cases hE : eventEnds (true :: r) with
          | nil => rw [hE] at h; simp at h
          | cons e0 es =>
            rw [hE] at h
            simp only [List.map_cons, List.zip_cons_cons] at h
            have hpair : (0, e0) ∈ (eventStarts (true :: r)).zip (eventEnds (true :: r)) := by
              rw [eventStarts_head_true (true :: r) rfl, hE, List.zip_cons_cons]
              exact List.mem_cons_self _ _
            rcases List.mem_cons.1 h with hhead | htail
            · simp only [Prod.mk.injEq] at hhead
              obtain ⟨rfl, rfl⟩ := hhead
              obtain ⟨j, rfl⟩ : ∃ j, i = j + 1 := ⟨i - 1, by omega⟩
              rw [List.getD_cons_succ]
              cases j with
              | zero => rfl
              | succ k => exact ih 0 (e0) hpair (k + 1) (by omega) (by omega)
            · rw [List.zip_map] at htail
              obtain ⟨⟨s0, e0x⟩, hmem, heq⟩ := List.mem_map.1 htail
              have hs : s = s0 + 1 := by
                have h3 := congrArg Prod.fst heq
                simpa [Prod.map] using h3.symm
              have he : e = e0x + 1 := by
                have h3 := congrArg Prod.snd heq
                simpa [Prod.map] using h3.symm
              subst hs
              subst he
              have hmem2 : (s0, e0x) ∈ (eventStarts (true :: r)).zip (eventEnds (true :: r)) := by
                rw [eventStarts_head_true (true :: r) rfl, hE, List.zip_cons_cons]
                exact List.mem_cons_of_mem _ hmem
              obtain ⟨j, rfl⟩ : ∃ j, i = j + 1 := ⟨i - 1, by omega⟩
              rw [List.getD_cons_succ]
              exact ih s0 e0x hmem2 j (by omega) (by omega)
      | true =>
        cases b with
        | false =>
          intro s e h i h1 h2
          rw [eventStarts_true_false, eventEnds_true_false, List.zip_cons_cons] at h
          rcases List.mem_cons.1 h with hhead | htail
          · simp only [Prod.mk.injEq] at hhead
            obtain ⟨rfl, rfl⟩ := hhead
            omega
          · rw [List.zip_map] at htail
            obtain ⟨⟨s0, e0⟩, hmem, heq⟩ := List.mem_map.1 htail
            have hs : s = s0 + 1 := by
              have h3 := congrArg Prod.fst heq
              simpa [Prod.map] using h3.symm
            have he : e = e0 + 1 := by
              have h3 := congrArg Prod.snd heq
              simpa [Prod.map] using h3.symm
            subst hs
            subst he
            obtain ⟨j, rfl⟩ : ∃ j, i = j + 1 := ⟨i - 1, by omega⟩
            rw [List.getD_cons_succ]
            exact ih s0 e0 hmem j (by omega) (by omega)
        | true =>
          intro s e h i h1 h2
          rw [eventStarts_true_true, eventEnds_true_true,
            eventStarts_head_true (true :: r) rfl] at h
          simp only [List.map_cons, List.tail_cons] at h
          cases hE : eventEnds (true :: r) with
          | nil => rw [hE] at h; simp at h
          | cons e0 es =>
            rw [hE] at h
            simp only [List.map_cons, List.zip_cons_cons] at h
            have hpair : (0, e0) ∈ (eventStarts (true :: r)).zip (eventEnds (true :: r)) := by
              rw [eventStarts_head_true (true :: r) rfl, hE, List.zip_cons_cons]
              exact List.mem_cons_self _ _
            rcases List.mem_cons.1 h with hhead | htail
            · simp only [Prod.mk.injEq] at hhead
              obtain ⟨rfl, rfl⟩ := hhead
              obtain ⟨j, rfl⟩ : ∃ j, i = j + 1 := ⟨i - 1, by omega⟩
              rw [List.getD_cons_succ]
              cases j with
              | zero => rfl
              | succ k => exact ih 0 e0 hpair (k + 1) (by omega) (by omega)
            · rw [List.zip_map] at htail
              obtain ⟨⟨s0, e0x⟩, hmem, heq⟩ := List.mem_map.1 htail
              have hs : s = s0 + 1 := by
                have h3 := congrArg Prod.fst heq
                simpa [Prod.map] using h3.symm
              have he : e = e0x + 1 := by
                have h3 := congrArg Prod.snd heq
                simpa [Prod.map] using h3.symm
              subst hs
              subst he
              have hmem2 : (s0, e0x) ∈ (eventStarts (true :: r)).zip (eventEnds (true :: r)) := by
                rw [eventStarts_head_true (true :: r) rfl, hE, List.zip_cons_cons]
                exact List.mem_cons_of_mem _ hmem
              obtain ⟨j, rfl⟩ : ∃ j, i = j + 1 := ⟨i - 1, by omega⟩
              rw [List.getD_cons_succ]
              exact ih s0 e0x hmem2 j (by omega) (by omega)

/-- Completeness of the edge-based run extraction of `detect_events`: every
position where the mask is true is covered by some zipped start-end pair.  In
particular runs touching the first or last sample are not lost. -/
theorem events_cover :
    ∀ (m : List Bool) (i : ℕ), i < m.length → m.getD i false = true →
      ∃ p ∈ (eventStarts m).zip (eventEnds m), p.1 ≤ i ∧ i ≤ p.2 := by
  intro m
  induction m with
  | nil => intro i h; simp at h
  | cons a t ih =>
    cases t with
    | nil =>
      intro i hlen hv
      have h0 : i = 0 := by simp at hlen; omega
      subst h0
      have ha : a = true := by simpa using hv
      subst ha
      refine ⟨(0, 0), ?_, by omega, by omega⟩
      rw [eventStarts_single, eventEnds_single]
      simp
    | cons b r =>
      cases a with
      | false =>
        cases b with
        | false =>
          intro i hlen hv
          obtain ⟨j, rfl⟩ : ∃ j, i = j + 1 := by
            cases i with
            | zero => simp at hv
            | succ j => exact ⟨j, rfl⟩
          rw [List.getD_cons_succ] at hv
          obtain ⟨⟨s0, e0⟩, hmem, hb1, hb2⟩ :=
            ih j (by simp at hlen ⊢; omega) hv
          refine ⟨(s0 + 1, e0 + 1), ?_, by omega, by omega⟩
          rw [eventStarts_false_false, eventEnds_cons_false, List.zip_map]
          exact List.mem_map.2 ⟨(s0, e0), hmem, rfl⟩
        | true =>
          intro i hlen hv
          obtain ⟨j, rfl⟩ : ∃ j, i = j + 1 := by
            cases i with
            | zero => simp at hv
            | succ j => exact ⟨j, rfl⟩
          rw [List.getD_cons_succ] at hv
          obtain ⟨⟨s0, e0⟩, hmem, hb1, hb2⟩ :=
            ih j (by simp at hlen ⊢; omega) hv
          rw [eventStarts_head_true (true :: r) rfl] at hmem
          cases hE : eventEnds (true :: r) with
          | nil => rw [hE] at hmem; simp at hmem
          | cons e1 es =>
            rw [hE, List.zip_cons_cons] at hmem
            rw [eventStarts_false_true, eventEnds_cons_false,
              eventStarts_head_true (true :: r) rfl, hE]
            simp only [List.map_cons, List.tail_cons, List.zip_cons_cons]
            rcases List.mem_cons.1 hmem with hhead | htail
            · simp only [Prod.mk.injEq] at hhead
              obtain ⟨rfl, rfl⟩ := hhead
              exact ⟨(0, e0 + 1), List.mem_cons_self _ _, by omega, by omega⟩
            · refine ⟨(s0 + 1, e0 + 1), ?_, by omega, by omega⟩
              refine List.mem_cons_of_mem _ ?_
              rw [List.zip_map]
              exact List.mem_map.2 ⟨(s0, e0), htail, rfl⟩
      | true =>
        cases b with
        | false =>
          intro i hlen hv
          rw [eventStarts_true_false, eventEnds_true_false, List.zip_cons_cons]
          cases i with
          | zero => exact ⟨(0, 0), List.mem_cons_self _ _, by omega, by omega⟩
          | succ j =>
            rw [List.getD_cons_succ] at hv
            obtain ⟨⟨s0, e0⟩, hmem, hb1, hb2⟩ :=
              ih j (by simp at hlen ⊢; omega) hv
            refine ⟨(s0 + 1, e0 + 1), ?_, by omega, by omega⟩
            refine List.mem_cons_of_mem _ ?_
            rw [List.zip_map]
            exact List.mem_map.2 ⟨(s0, e0), hmem, rfl⟩
        | true =>
          intro i hlen hv
          cases hE : eventEnds (true :: r) with
          | nil => exact absurd hE (eventEnds_ne_nil_of_head_true (true :: r) rfl)
          | cons e1 es =>
            rw [eventStarts_true_true, eventEnds_true_true,
              eventStarts_head_true (true :: r) rfl, hE]
            simp only [List.map_cons, List.tail_cons, List.zip_cons_cons]
            cases i with
            | zero => exact ⟨(0, e1 + 1), List.mem_cons_self _ _, by omega, by omega⟩
            | succ j =>
              rw [List.getD_cons_succ] at hv
              obtain ⟨⟨s0, e0⟩, hmem, hb1, hb2⟩ :=
                ih j (by simp at hlen ⊢; omega) hv
              rw [eventStarts_head_true (true :: r) rfl, hE, List.zip_cons_cons] at hmem
              rcases List.mem_cons.1 hmem with hhead | htail
              · simp only [Prod.mk.injEq] at hhead
                obtain ⟨rfl, rfl⟩ := hhead
                exact ⟨(0, e0 + 1), List.mem_cons_self _ _, by omega, by omega⟩
              · refine ⟨(s0 + 1, e0 + 1), ?_, by omega, by omega⟩
                refine List.mem_cons_of_mem _ ?_
                rw [List.zip_map]
                exact List.mem_map.2 ⟨(s0, e0), htail, rfl⟩

/-- The start and end lists of `detect_blocks` always balance, so the
mismatch fix-up in the source is dead and `zip` pairs them bijectively. -/
theorem blockStarts_length_eq :
    ∀ m : List Bool, (blockStarts m).length = (blockEnds m).length := by
  intro m
  induction m with
  | nil => rfl
  | cons a t ih =>
    cases t with
    | nil => cases a <;> simp [blockStarts_single, blockEnds_single]
    | cons b r =>
      cases a with
      | false => rw [blockStarts_cons_false, blockEnds_cons_false]; simpa using ih
      | true =>
        cases b with
        | false =>
          rw [blockStarts_true_false, blockEnds_true_false]
          simpa using ih
        | true =>
          rw [blockStarts_true_true, blockEnds_true_true]
          rw [blockStarts_head_true (true :: r) rfl] at ih ⊢
          simp only [List.map_cons, List.tail_cons, List.length_cons, List.length_map] at ih ⊢
          omega

/-- Every end index produced by `blockEnds` is inside the mask. -/
theorem blockEnds_lt_length {m : List Bool} {e : ℕ} (h : e ∈ blockEnds m) : e < m.length := by
  rcases List.mem_append.1 h with h1 | h2
  · obtain ⟨j, hj, rfl⟩ := List.mem_map.1 h1
    have := (mem_edgeIdx hj).2
    omega
  · by_cases hl : m.getLastD false = true
    · rw [hl] at h2
      simp only [if_true] at h2
      have he : e = m.length - 1 := by simpa using h2
      have hm : m ≠ [] := by
        intro hnil
        rw [hnil] at hl
        simp at hl
      have : 0 < m.length := List.length_pos.2 hm
      omega
    · rw [Bool.not_eq_true] at hl
      rw [hl] at h2
      simp at h2

/-- Every end index produced by `eventEnds` is inside the mask. -/
theorem eventEnds_lt_length {m : List Bool} {e : ℕ} (h : e ∈ eventEnds m) : e < m.length := by
  rcases List.mem_append.1 h with h1 | h2
  · have := (mem_edgeIdx h1).2
    omega
  · by_cases hl : m.getLastD false = true
    · rw [hl] at h2
      simp only [if_true] at h2
      have he : e = m.length - 1 := by simpa using h2
      have hm : m ≠ [] := by
        intro hnil
        rw [hnil] at hl
        simp at hl
      have : 0 < m.length := List.length_pos.2 hm
      omega
    · rw [Bool.not_eq_true] at hl
      rw [hl] at h2
      simp at h2

/-- A start index produced by `eventStarts` is either the boundary index `0`
with the mask true there, or a rising-edge position at which the mask is
false. -/
theorem eventStarts_mem_char {m : List Bool} {s : ℕ} (h : s ∈ eventStarts m) :
    (s = 0 ∧ m.getD 0 false = true) ∨ (m.getD s false = false ∧ s + 1 < m.length) := by
  rcases List.mem_append.1 h with h1 | h2
  · by_cases h0 : m.getD 0 false
    · left
      have h2 : m[0]?.getD false = true := by simpa [List.getD] using h0
      constructor
      · simpa [h2, List.getD] using h1
      · exact h0
    · have h2 : m[0]?.getD false = false := by
        simpa [List.getD] using h0
      simp [List.getD, h2] at h1
  · right
    obtain ⟨h3, h4⟩ := mem_edgeIdx h2
    rw [riseP, Bool.and_eq_true] at h3
    obtain ⟨hn, _⟩ := h3
    exact ⟨by simpa using hn, h4⟩

/-- The event starts are strictly increasing. -/
theorem eventStarts_sorted (m : List Bool) : (eventStarts m).Pairwise (· < ·) := by
  by_cases h0 : m.getD 0 false
  · rw [eventStarts_head_true m h0]
    refine List.pairwise_cons.2 ⟨?_, edgeIdx_sorted riseP m⟩
    intro s hs
    rcases Nat.eq_zero_or_pos s with rfl | hpos
    · have h3 := (mem_edgeIdx hs).1
      rw [riseP, Bool.and_eq_true] at h3
      obtain ⟨hn, _⟩ := h3
      rw [h0] at hn
      simp at hn
    · exact hpos
  · have h2 : m[0]?.getD false = false := by
      simpa [List.getD] using h0
    rw [eventStarts]
    simp [List.getD, h2]
    exact edgeIdx_sorted riseP m

/-- Pairwise relation on the first components survives zipping. -/
theorem pairwise_zip_left {R : ℕ → ℕ → Prop} :
    ∀ (l l2 : List ℕ), l.Pairwise R → (l.zip l2).Pairwise (fun p q => R p.1 q.1) := by
  intro l
  induction l with
  | nil => intro l2 h; simp
  | cons a t ih =>
    intro l2 h
    cases l2 with
    | nil => simp
    | cons b t2 =>
      rw [List.zip_cons_cons]
      rcases List.pairwise_cons.1 h with ⟨ha, ht⟩
      refine List.pairwise_cons.2 ⟨?_, ih t2 ht⟩
      intro q hq
      exact ha q.1 (List.of_mem_zip hq).1

/-- Evaluating a decidable-predicate mask with default `false`: a true entry
certifies that the index is in range and the predicate holds there. -/
theorem mask_getD_true {P : ℚ → Prop} [DecidablePred P] {l : List ℚ} {i : ℕ}
    (h : (l.map (fun x => decide (P x))).getD i false = true) :
    i < l.length ∧ P (l.getD i 0) := by
  by_cases hi : i < l.length
  · refine ⟨hi, ?_⟩
    rw [List.getD_eq_getElem _ _ (by simpa using hi)] at h
    rw [List.getElem_map] at h
    rw [List.getD_eq_getElem _ _ hi]
    exact of_decide_eq_true h
  · rw [List.getD_eq_default] at h
    · simp at h
    · simpa using Nat.le_of_not_lt hi

theorem evMask_length (dir : Direction) (t : ℚ) (data : List ℚ) :
    (evMask dir t data).length = data.length := by
  cases dir <;> simp [evMask]

theorem evMask_getD_true {dir : Direction} {t : ℚ} {data : List ℚ} {i : ℕ}
    (h : (evMask dir t data).getD i false = true) :
    i < data.length ∧ evPred dir t (data.getD i 0) := by
  cases dir
  · exact mask_getD_true (P := fun x => t < x) h
  · exact mask_getD_true (P := fun x => x < t) h

theorem evMask_getD_of (dir : Direction) (t : ℚ) {data : List ℚ} {i : ℕ}
    (hi : i < data.length) (hp : evPred dir t (data.getD i 0)) :
    (evMask dir t data).getD i false = true := by
  cases dir <;>
  · rw [evMask]
    rw [List.getD_eq_getElem _ _ (by simpa using hi), List.getElem_map]
    rw [List.getD_eq_getElem _ _ hi] at hp
    simpa using hp

/-- Unfolding of a successful `detect_events` call: the returned events are
exactly the zipped start-end pairs that pass the minimum-duration filter. -/
theorem detect_events_eq (data time : List ℚ) (t : ℚ) (dir : Direction) (md : ℚ)
    (evs : List (ℕ × ℕ)) (h : detect_events data time t dir md = some evs) :
    evs = ((eventStarts (evMask dir t data)).zip (eventEnds (evMask dir t data))).filter
      (fun p => decide (pyInt (md * ((time.length : ℚ) /
        (time.getLastD 0 - time.getD 0 0))) ≤ (p.2 : ℤ) - (p.1 : ℤ))) := by
  unfold detect_events at h
  by_cases h1 : data.length = 0 ∨ time.length = 0
  · rw [if_pos h1] at h
    simp at h
  · rw [if_neg h1] at h
    by_cases h2 : time.getLastD 0 - time.getD 0 0 = 0
    · rw [if_pos h2] at h
      simp at h
    · rw [if_neg h2] at h
      simpa using h.symm

/-- C6.  For empty data and time arrays, `detect_events` does NOT return an
empty list: the source evaluates `mask[0]` on the empty mask, which raises
IndexError (modelled as `none`).  The claim (and the error-handling section of
the spec) says an empty result should be returned; the code is the slip. -/
theorem detect_events_empty_raises :
    ∀ (t : ℚ) (dir : Direction) (md : ℚ), detect_events [] [] t dir md = none := by
  intro t dir md
  rfl

/-- C2 (amended).  For a successful `detect_events` call the returned pairs
satisfy: (1) the threshold predicate holds at every sample strictly after
`start_idx` and up to `end_idx` (the claim stated it from `start_idx` on,
which fails: the unshifted rising-edge index is the sample just BEFORE the
threshold crossing); (2) the start sample itself satisfies the predicate only
for an event beginning at the first sample, and otherwise fails it; (3) the
pairs are in ascending order; (4) every kept pair spans at least the minimum
number of samples derived from `min_duration` via the average sample spacing
of the time array; (5) every sample satisfying the predicate is covered by
some zipped pair, so regions touching the array boundary are not lost. -/
theorem detect_events_spec (data time : List ℚ) (t : ℚ) (dir : Direction) (md : ℚ)
    (evs : List (ℕ × ℕ)) (h : detect_events data time t dir md = some evs) :
    (∀ p ∈ evs, ∀ i, p.1 < i → i ≤ p.2 → evPred dir t (data.getD i 0)) ∧
    (∀ p ∈ evs, (p.1 = 0 ∧ evPred dir t (data.getD 0 0)) ∨ ¬ evPred dir t (data.getD p.1 0)) ∧
    List.Pairwise (fun p q => p.1 < q.1) evs ∧
    (∀ p ∈ evs,
      pyInt (md * ((time.length : ℚ) / (time.getLastD 0 - time.getD 0 0))) ≤
        (p.2 : ℤ) - (p.1 : ℤ)) ∧
    (∀ i, i < data.length → evPred dir t (data.getD i 0) →
      ∃ p ∈ (eventStarts (evMask dir t data)).zip (eventEnds (evMask dir t data)),
        p.1 ≤ i ∧ i ≤ p.2 ∧ p.2 < data.length) := by
  have heq := detect_events_eq data time t dir md evs h
  refine ⟨?_, ?_, ?_, ?_, ?_⟩
  · intro p hp i h1 h2
    rw [heq] at hp
    have hz := List.mem_of_mem_filter hp
    have hmask := events_mask_true (evMask dir t data) p.1 p.2 (by simpa using hz) i h1 h2
    exact (evMask_getD_true hmask).2
  · intro p hp
    rw [heq] at hp
    have hz := List.mem_of_mem_filter hp
    have hs : p.1 ∈ eventStarts (evMask dir t data) := (List.of_mem_zip (by simpa using hz)).1
    rcases eventStarts_mem_char hs with ⟨h0, hm⟩ | ⟨hm, hlen⟩
    · exact Or.inl ⟨h0, (evMask_getD_true hm).2⟩
    · right
      intro hpred
      have hlt : p.1 < data.length := by
        rw [evMask_length] at hlen
        omega
      have := evMask_getD_of dir t hlt hpred
      rw [this] at hm
      exact Bool.true_eq_false.mp hm
  · rw [heq]
    exact List.Pairwise.filter _
      (pairwise_zip_left _ _ (eventStarts_sorted (evMask dir t data)))
  · intro p hp
    rw [heq] at hp
    have := List.of_mem_filter hp
    exact of_decide_eq_true this
  · intro i hi hpred
    have hmaski := evMask_getD_of dir t hi hpred
    obtain ⟨p, hmem, hb1, hb2⟩ := events_cover (evMask dir t data) i
      (by rw [evMask_length]; exact hi) hmaski
    refine ⟨p, hmem, hb1, hb2, ?_⟩
    have : p.2 ∈ eventEnds (evMask dir t data) := (List.of_mem_zip (by simpa using hmem)).2
    have := eventEnds_lt_length this
    rw [evMask_length] at this
    exact this

/-- C2 counterexample.  On `data = [0, 5, 0]` with threshold `1` the source
returns the pair `(0, 1)`, yet `data[0] = 0` is NOT above the threshold: the
rising-edge index is not shifted, so the returned `start_idx` is the sample
just before the crossing, refuting the claim that every sample from
`start_idx` to `end_idx` lies above the threshold. -/
theorem detect_events_start_idx_cex :
    detect_events [0, 5, 0] [0, 1, 2] 1 .above 0 = some [(0, 1)] ∧
    ¬ (1 : ℚ) < ([0, 5, 0] : List ℚ).getD 0 0 := by
  constructor
  · norm_num [detect_events, evMask, eventStarts, eventEnds, edgeIdx, riseP, fallP, pyInt,
      List.getD, List.getLastD]
  · norm_num [List.getD]

/-- C2 witness: the amended theorem applied to the concrete run above, at the
sample `i = 1` inside the returned pair `(0, 1)`. -/
theorem detect_events_spec_witness : evPred .above 1 (([0, 5, 0] : List ℚ).getD 1 0) := by
  have h := detect_events_spec [0, 5, 0] [0, 1, 2] 1 .above 0 [(0, 1)]
    (by norm_num [detect_events, evMask, eventStarts, eventEnds, edgeIdx, riseP, fallP, pyInt,
      List.getD, List.getLastD])
  exact h.1 (0, 1) (by simp) 1 (by omega) (by omega)

/-- Because starts and ends always balance, the mismatch fix-up of the source
never fires and `blockRuns` is the plain zip of starts and ends. -/
theorem blockRuns_eq (m : List Bool) (n : ℕ) :
    blockRuns m n = (blockStarts m).zip (blockEnds m) := by
  simp [blockRuns, blockStarts_length_eq m]

/-- Evaluating a mapped boolean mask with default `false`: a true entry
certifies that the index is in range and the function is true there. -/
theorem mask_getD_true_bool {g : ℚ → Bool} {l : List ℚ} {i : ℕ}
    (h : (l.map g).getD i false = true) : i < l.length ∧ g (l.getD i 0) = true := by
  by_cases hi : i < l.length
  · refine ⟨hi, ?_⟩
    rw [List.getD_eq_getElem _ _ (by simpa using hi), List.getElem_map] at h
    rw [List.getD_eq_getElem _ _ hi]
    exact h
  · rw [List.getD_eq_default] at h
    · simp at h
    · simpa using Nat.le_of_not_lt hi

/-- Every block returned by a successful `detect_blocks` call is built from a
zipped start-end pair of the in-block mask, for some value of the baseline
standard deviation. -/
theorem detect_blocks_mem (npStd : List ℚ → ℚ) (data time : List ℚ) (bt : Option ℚ)
    (f md : ℚ) (bs : List BlockEvent) (h : detect_blocks npStd data time bt f md = some bs)
    (blk : BlockEvent) (hblk : blk ∈ bs) :
    ∃ bstd, ∃ p ∈ (blockStarts (blockMask data (blockBaseline data bt) f bstd)).zip
        (blockEnds (blockMask data (blockBaseline data bt) f bstd)),
      blk = buildBlock data time (blockBaseline data bt) p := by
  unfold detect_blocks at h
  by_cases h1 : data.length = 0 ∨ time.length = 0
  · rw [if_pos h1] at h
    have hbs : bs = [] := by simpa using h.symm
    rw [hbs] at hblk
    simp at hblk
  · rw [if_neg h1] at h
    have hbl : (match bt with
        | none =>
          let _hist := histBaseline data
          upperHalfMedian data
        | some v => v) = blockBaseline data bt := by
      cases bt <;> rfl
    simp only [hbl] at h
    by_cases h2 : 1 < time.length ∧ time.getLastD 0 - time.getD 0 0 = 0
    · rw [if_pos h2] at h
      simp at h
    · rw [if_neg h2] at h
      have hbs := Option.some.inj h
      rw [← hbs] at hblk
      obtain ⟨p, hpf, hpb⟩ := List.mem_map.1 hblk
      have hpz := List.mem_of_mem_filter hpf
      rw [blockRuns_eq] at hpz
      exact ⟨_, p, hpz, hpb.symm⟩

/-- C1 (amended).  Whenever the baseline used by `detect_blocks` (supplied or
estimated) is nonzero, every sample of a returned block with
`start_idx ≤ i < end_idx` lies strictly between zero and the baseline: same
sign as the baseline and strictly smaller magnitude.  The claim stated this
for `start_idx ≤ i ≤ end_idx`, which fails: the falling-edge index plus one
is the first sample AFTER the run, so `data[end_idx]` itself can sit at the
baseline (see the counterexample). -/
theorem detect_blocks_in_band (npStd : List ℚ → ℚ) (data time : List ℚ) (bt : Option ℚ)
    (f md : ℚ) (bs : List BlockEvent)
    (hsome : detect_blocks npStd data time bt f md = some bs)
    (_hb : blockBaseline data bt ≠ 0) :
    ∀ blk ∈ bs, ∀ i, blk.start_idx ≤ i → i < blk.end_idx →
      (blockBaseline data bt < 0 →
        blockBaseline data bt < data.getD i 0 ∧ data.getD i 0 < 0) ∧
      (0 < blockBaseline data bt →
        0 < data.getD i 0 ∧ data.getD i 0 < blockBaseline data bt) := by
  intro blk hblk i h1 h2
  obtain ⟨bstd, p, hp, hbuild⟩ := detect_blocks_mem npStd data time bt f md bs hsome blk hblk
  rw [hbuild] at h1 h2
  simp only [buildBlock] at h1 h2
  have hmask := blocks_mask_true _ p.1 p.2 (by simpa using hp) i h1 h2
  constructor
  · intro hneg
    rw [blockMask, if_pos hneg] at hmask
    obtain ⟨hlt, hpred⟩ := mask_getD_true_bool hmask
    rw [Bool.and_eq_true, Bool.and_eq_true] at hpred
    obtain ⟨⟨hp1, hp2⟩, hp3⟩ := hpred
    have hx0 : data.getD i 0 < 0 := of_decide_eq_true hp2
    have habs : |data.getD i 0| < |blockBaseline data bt| := of_decide_eq_true hp3
    rw [abs_of_neg hx0, abs_of_neg hneg] at habs
    exact ⟨by linarith, hx0⟩
  · intro hpos
    have hnn : ¬ blockBaseline data bt < 0 := by linarith
    rw [blockMask, if_neg hnn, if_pos hpos] at hmask
    obtain ⟨hlt, hpred⟩ := mask_getD_true_bool hmask
    rw [Bool.and_eq_true, Bool.and_eq_true] at hpred
    obtain ⟨⟨hp1, hp2⟩, hp3⟩ := hpred
    have hx0 : 0 < data.getD i 0 := of_decide_eq_true hp2
    have habs : |data.getD i 0| < |blockBaseline data bt| := of_decide_eq_true hp3
    rw [abs_of_pos hx0, abs_of_pos hpos] at habs
    exact ⟨hx0, habs⟩

/-- C1 counterexample.  With baseline `-5`, factor `0` (so the standard
deviation is irrelevant and the oracle value `0` is immaterial) and data
`[-5, -1, -5, -1]`, the source returns a block with `start_idx = 1` and
`end_idx = 2`; the sample `data[2] = -5` sits inside the claimed inclusive
range but is NOT strictly between zero and the baseline (it equals the
baseline), refuting the claim for `start_idx ≤ i ≤ end_idx`. -/
theorem detect_blocks_end_idx_cex :
    detect_blocks (fun _ => 0) [-5, -1, -5, -1] [0, 1, 2, 3] (some (-5)) 0 (1 / 1000) =
      some [{ start_time := 1, end_time := 2, duration := 1, start_idx := 1, end_idx := 2,
              average_amplitude := -3, baseline_amplitude := -5, block_depth := 2 },
            { start_time := 3, end_time := 3, duration := 0, start_idx := 3, end_idx := 3,
              average_amplitude := -1, baseline_amplitude := -5, block_depth := 4 }] ∧
    ¬ ((-5 : ℚ) < ([-5, -1, -5, -1] : List ℚ).getD 2 0) := by
  constructor
  · norm_num [detect_blocks, blockBaseline, blockMask, blockRuns, buildBlock, blockStarts,
      blockEnds, edgeIdx, riseP, fallP, pyInt, npMean, List.getD, List.getLastD, min_def]
  · norm_num [List.getD]

/-- C1 witness: the amended theorem applied to the concrete run of the
counterexample, at the in-run sample `i = 1` of the block `(1, 2)`. -/
theorem detect_blocks_in_band_witness :
    (-5 : ℚ) < ([-5, -1, -5, -1] : List ℚ).getD 1 0 ∧
      ([-5, -1, -5, -1] : List ℚ).getD 1 0 < 0 := by
  have h := detect_blocks_in_band (fun _ => 0) [-5, -1, -5, -1] [0, 1, 2, 3] (some (-5)) 0
    (1 / 1000)
    [{ start_time := 1, end_time := 2, duration := 1, start_idx := 1, end_idx := 2,
       average_amplitude := -3, baseline_amplitude := -5, block_depth := 2 },
     { start_time := 3, end_time := 3, duration := 0, start_idx := 3, end_idx := 3,
       average_amplitude := -1, baseline_amplitude := -5, block_depth := 4 }]
    (by norm_num [detect_blocks, blockBaseline, blockMask, blockRuns, buildBlock, blockStarts,
      blockEnds, edgeIdx, riseP, fallP, pyInt, npMean, List.getD, List.getLastD, min_def])
    (by norm_num [blockBaseline])
  have h2 := h _ (List.mem_cons_self _ _) 1 (le_refl 1) (by norm_num)
  exact h2.1 (by norm_num [blockBaseline])

/-- Unfolding of the absolute value on rationals into an evaluable
conditional, for concrete computations. -/
theorem abs_rat_ite (q : ℚ) : |q| = if q < 0 then -q else q := by
  rcases lt_or_ge q 0 with h | h
  · simp [abs_of_neg h, h]
  · simp [abs_of_nonneg h, not_lt.2 h]

/-- C7.  First part: with no supplied baseline threshold, every block event
returned by `detect_blocks` records the median of the upper half of the
sorted data as its baseline amplitude.  Second part: `detect_blocks` is
extensionally equal to the variant with the dead histogram-mode estimate
deleted, so the histogram computation has no observable effect. -/
theorem detect_blocks_baseline_spec :
    (∀ (npStd : List ℚ → ℚ) (data time : List ℚ) (f md : ℚ) (bs : List BlockEvent),
      detect_blocks npStd data time none f md = some bs →
      ∀ blk ∈ bs, blk.baseline_amplitude = upperHalfMedian data) ∧
    (∀ (npStd : List ℚ → ℚ) (data time : List ℚ) (bt : Option ℚ) (f md : ℚ),
      detect_blocks npStd data time bt f md = detect_blocks_nohist npStd data time bt f md) := by
  constructor
  · intro npStd data time f md bs h blk hblk
    obtain ⟨bstd, p, hp, hbuild⟩ := detect_blocks_mem npStd data time none f md bs h blk hblk
    rw [hbuild]
    rfl
  · intro npStd data time bt f md
    rfl

/-- C7 witness: a concrete run with estimated baseline; the returned block
records the upper-half median `-5/2` of `[-4, -4, -1, -4]`. -/
theorem detect_blocks_baseline_spec_witness :
    ({ start_time := 2, end_time := 3, duration := 1, start_idx := 2, end_idx := 3,
       average_amplitude := -5/2, baseline_amplitude := -5/2,
       block_depth := 0 } : BlockEvent).baseline_amplitude =
      upperHalfMedian [-4, -4, -1, -4] := by
  refine detect_blocks_baseline_spec.1 (fun _ => 0) [-4, -4, -1, -4] [0, 1, 2, 3] 0 (1 / 1000)
    [{ start_time := 2, end_time := 3, duration := 1, start_idx := 2, end_idx := 3,
       average_amplitude := -5/2, baseline_amplitude := -5/2, block_depth := 0 }]
    ?_ _ (List.mem_cons_self _ _)
  norm_num [detect_blocks, blockBaseline, blockMask, blockRuns, buildBlock, blockStarts,
    blockEnds, edgeIdx, riseP, fallP, pyInt, npMean, upperHalfMedian, npMedian, npPercentile,
    npSort, List.insertionSort, List.orderedInsert, List.getD, List.getLastD, min_def,
    abs_rat_ite]

/-- C3 (amended).  The boundary cases in which the kinetics calculators are
guaranteed to return `None` are asymmetric: `calculate_rise_time` returns
`None` at `peak_idx = 0` (guard `peak_idx <= 0`), and `calculate_decay_time`
returns `None` at the last index (guard `peak_idx >= len(data) - 1`).  The
claim that BOTH return `None` at BOTH boundaries fails; see the
counterexample for the other two combinations. -/
theorem rise_decay_boundary_none (data time : List ℚ) (bp pp dp : ℚ) :
    calculate_rise_time data time 0 bp pp = none ∧
    calculate_decay_time data time ((data.length : ℤ) - 1) dp = none := by
  constructor
  · rw [calculate_rise_time, if_pos]
    exact Or.inl (le_refl 0)
  · rw [calculate_decay_time, if_pos]
    exact Or.inr (le_refl _)

/-- C3 counterexample.  `calculate_rise_time` at the LAST index returns an
actual value (the guard is `peak_idx >= len(data)`, which the last index
passes), and `calculate_decay_time` at index `0` also returns a value (its
guard is `peak_idx < 0`): neither is `None`, refuting the claim for these
two boundary combinations. -/
theorem rise_decay_boundary_cex :
    calculate_rise_time [0, 1, 2, 3] [0, 1, 2, 3] 3 10 90 = some 2 ∧
    calculate_decay_time [3, 2, 1, 0] [0, 1, 2, 3] 0 (316 / 5) = some 2 := by
  constructor
  · have h3 : ((3 : ℤ)).toNat = 3 := rfl
    norm_num [calculate_rise_time, lastCrossing, edgeIdx, riseP, npPercentile, npSort,
      List.insertionSort, List.orderedInsert, List.getD, List.getLast?, List.getLast, h3]
  · norm_num [calculate_decay_time, firstTrue, List.getD]

/-- C9.  For an interior peak index with a negative peak sample and a decay
percentage strictly between 0 and 100, the decay target lies strictly above
the peak value, so the very first sample of the scanned tail (the peak
itself) is already below target and `calculate_decay_time` returns exactly
`0`, not `None` and not a positive time. -/
theorem decay_time_negative_peak_zero (data time : List ℚ) (p : ℕ) (dp : ℚ)
    (hp : 0 < p) (hlt : (p : ℤ) < (data.length : ℤ) - 1)
    (hneg : data.getD p 0 < 0) (h0 : 0 < dp) (_h100 : dp < 100) :
    calculate_decay_time data time (p : ℤ) dp = some 0 := by
  have hplen : p < data.length := by omega
  rw [calculate_decay_time, if_neg (by push_neg; exact ⟨by positivity, by omega⟩)]
  have hval : data[p] = data.getD p 0 := (List.getD_eq_getElem data 0 hplen).symm
  have htarget : data[p] < data.getD p 0 * (1 - dp / 100) := by
    rw [hval]
    nlinarith [mul_pos (neg_pos.2 hneg) (by positivity : (0 : ℚ) < dp / 100)]
  simp only [Int.toNat_natCast]
  rw [List.drop_eq_getElem_cons hplen, List.map_cons, firstTrue]
  rw [if_pos (decide_eq_true htarget)]
  simp [sub_self]

/-- C9 witness: a concrete sweep with a negative trough at index 1. -/
theorem decay_time_negative_peak_zero_witness :
    calculate_decay_time [0, -4, 0, 0] [0, 1, 2, 3] (1 : ℤ) 50 = some 0 := by
  have h := decay_time_negative_peak_zero [0, -4, 0, 0] [0, 1, 2, 3] 1 50 (by norm_num)
    (by norm_num) (by norm_num [List.getD]) (by norm_num) (by norm_num)
  simpa using h

theorem list_sum_map_add (l : List ℚ) (c : ℚ) :
    (l.map (· + c)).sum = l.sum + l.length * c := by
  induction l with
  | nil => simp
  | cons a t ih =>
    simp only [List.map_cons, List.sum_cons, List.length_cons, ih]
    push_cast
    ring

theorem npMean_map_add (l : List ℚ) (c : ℚ) (h : l ≠ []) :
    npMean (l.map (· + c)) = npMean l + c := by
  have hn : (l.length : ℚ) ≠ 0 := Nat.cast_ne_zero.mpr (List.length_pos.2 h).ne'
  rw [npMean, npMean, List.length_map, list_sum_map_add]
  field_simp
  ring

theorem npVar_map_add (l : List ℚ) (c : ℚ) (h : l ≠ []) :
    npVar (l.map (· + c)) = npVar l := by
  rw [npVar, npVar, List.length_map, npMean_map_add l c h, List.map_map]
  have hfun : ((fun x => (x - (npMean l + c)) ^ 2) ∘ fun x => x + c) =
      fun x => (x - npMean l) ^ 2 := by
    funext x
    simp only [Function.comp]
    ring
  rw [hfun]

theorem foldl_max_map_add (c : ℚ) : ∀ (l : List ℚ) (a : ℚ),
    (l.map (· + c)).foldl max (a + c) = l.foldl max a + c := by
  intro l
  induction l with
  | nil => intro a; simp
  | cons x t ih =>
    intro a
    simp only [List.map_cons, List.foldl_cons]
    rw [max_add_add_right]
    exact ih (max a x)

theorem foldl_min_map_add (c : ℚ) : ∀ (l : List ℚ) (a : ℚ),
    (l.map (· + c)).foldl min (a + c) = l.foldl min a + c := by
  intro l
  induction l with
  | nil => intro a; simp
  | cons x t ih =>
    intro a
    simp only [List.map_cons, List.foldl_cons]
    rw [min_add_add_right]
    exact ih (min a x)

theorem npMax_map_add (l : List ℚ) (c : ℚ) (h : l ≠ []) :
    npMax (l.map (· + c)) = npMax l + c := by
  cases l with
  | nil => exact absurd rfl h
  | cons a t =>
    simp only [List.map_cons, npMax]
    exact foldl_max_map_add c t a

theorem npMin_map_add (l : List ℚ) (c : ℚ) (h : l ≠ []) :
    npMin (l.map (· + c)) = npMin l + c := by
  cases l with
  | nil => exact absurd rfl h
  | cons a t =>
    simp only [List.map_cons, npMin]
    exact foldl_min_map_add c t a

/-- C8.  Adding a constant to every sample shifts the mean by that constant
and leaves the standard deviation, the variance and the range unchanged. -/
theorem statistics_shift (data : List ℚ) (c : ℚ) (h : data ≠ []) :
    (calculate_statistics (data.map (· + c))).mean = (calculate_statistics data).mean + c ∧
    (calculate_statistics (data.map (· + c))).std = (calculate_statistics data).std ∧
    (calculate_statistics (data.map (· + c))).variance = (calculate_statistics data).variance ∧
    (calculate_statistics (data.map (· + c))).range = (calculate_statistics data).range := by
  have hvar := npVar_map_add data c h
  refine ⟨npMean_map_add data c h, ?_, ?_, ?_⟩
  · rw [Statistics.std, Statistics.std]
    simp only [calculate_statistics]
    rw [hvar]
  · simp only [calculate_statistics]
    exact hvar
  · simp only [calculate_statistics]
    rw [npMax_map_add data c h, npMin_map_add data c h]
    ring

/-- C8 witness: the shift property at the concrete array `[1, 2]` and
constant `5`. -/
theorem statistics_shift_witness :
    (calculate_statistics ([1, 2].map (· + 5))).mean = (calculate_statistics [1, 2]).mean + 5 ∧
    (calculate_statistics ([1, 2].map (· + 5))).std = (calculate_statistics [1, 2]).std ∧
    (calculate_statistics ([1, 2].map (· + 5))).variance =
      (calculate_statistics [1, 2]).variance ∧
    (calculate_statistics ([1, 2].map (· + 5))).range = (calculate_statistics [1, 2]).range :=
  statistics_shift [1, 2] 5 (by simp)

/-- C5 (amended).  For every NONZERO supplied height `h` and every `distance`
and `prominence` (both passed through unchanged to the same maxima search),
trough detection is exactly maxima detection on the negated data with the
negated height, the reported values are the original (non-negated) samples
and `is_max` is false.  For `h = 0` the claim fails: Python truthiness
(`-height if height else None`) drops the height constraint entirely instead
of negating it, so `find_peaks` with height `0` behaves as if no height had
been supplied, for every distance and prominence (third conjunct); see the
counterexample. -/
theorem find_peaks_trough_spec (data time : List ℚ) (h : ℚ) (hne : h ≠ 0)
    (distance : Option ℕ) (prominence : Option ℚ) :
    (find_peaks data time (some h) distance prominence false).map (List.map Peak.index) =
      (find_peaks (data.map (fun x => -x)) time (some (-h)) distance prominence true).map
        (List.map Peak.index) ∧
    (∀ pks, find_peaks data time (some h) distance prominence false = some pks →
      ∀ pk ∈ pks, pk.value = data.getD pk.index 0 ∧ pk.is_max = false) ∧
    (∀ (data2 time2 : List ℚ) (d2 : Option ℕ) (p2 : Option ℚ),
      find_peaks data2 time2 (some 0) d2 p2 false = find_peaks data2 time2 none d2 p2 false) := by
  refine ⟨?_, ?_, ?_⟩
  · simp only [find_peaks, hne, ite_false, Bool.false_eq_true, if_false, if_true,
      Option.map_map, List.map_map]
    congr 1
    funext l
    simp only [Function.comp, List.map_map]
    rfl
  · intro pks hpks pk hpk
    simp only [find_peaks, Bool.false_eq_true, if_false, hne, ite_false] at hpks
    obtain ⟨l, hl, hlk⟩ := Option.map_eq_some'.1 hpks
    rw [← hlk] at hpk
    obtain ⟨p, hp, hpk2⟩ := List.mem_map.1 hpk
    rw [← hpk2]
    exact ⟨rfl, rfl⟩
  · intro data2 time2 d2 p2
    rfl

/-- C5 counterexample.  With `height = 0` (and default distance and
prominence), the source returns the trough at index 1 of `[3, 1, 3]` (value
`1 > 0`), while the maxima of the negated data under the negated height
bound `-0 = 0` are empty (`-1 < 0` fails the height test): the returned
troughs are NOT the maxima of the negated data under the negated height
constraint. -/
theorem find_peaks_height_zero_cex :
    (find_peaks [3, 1, 3] [0, 1, 2] (some 0) none none false).map (List.map Peak.index) =
      some [1] ∧
    scipy_find_peaks ([3, 1, 3].map (fun x => -x)) (some (-0)) none none = some [] := by
  constructor
  · norm_num [find_peaks, scipy_find_peaks, scipyLocalMaxima, selectByHeight,
      selectByProminence, plateauEnd, plateauEndAux, List.getD, List.range_succ,
      List.filterMap_cons, List.filterMap_append]
  · norm_num [scipy_find_peaks, scipyLocalMaxima, selectByHeight, selectByProminence,
      plateauEnd, plateauEndAux, List.getD, List.range_succ, List.filterMap_cons,
      List.filterMap_append]

/-- C5 witness: the amended theorem at the concrete data `[3, 1, 3]` with
nonzero height `1`, a distance of `1` and a prominence of `1/2` (both passed
through unchanged). -/
theorem find_peaks_trough_spec_witness :
    (find_peaks [3, 1, 3] [0, 1, 2] (some 1) (some 1) (some (1 / 2)) false).map
        (List.map Peak.index) =
      (find_peaks ([3, 1, 3].map (fun x => -x)) [0, 1, 2] (some (-1)) (some 1)
        (some (1 / 2)) true).map (List.map Peak.index) :=
  (find_peaks_trough_spec [3, 1, 3] [0, 1, 2] 1 (by norm_num) (some 1) (some (1 / 2))).1

/-- Every record returned by `detect_inserts` is produced by `processSweep`
at the enumeration index stored in its `sweep` field, applied to the sweep
sitting at exactly that position of the input list. -/
theorem detect_inserts_mem (npStd : List ℚ → ℚ) (sweeps : List SweepData)
    (bs be rs re f : ℚ) (r : InsertRecord)
    (hr : r ∈ detect_inserts npStd sweeps bs be rs re f) :
    ∃ sw, sweeps[r.sweep]? = some sw ∧
      processSweep npStd bs be rs re f r.sweep sw = some r := by
  unfold detect_inserts at hr
  by_cases h0 : sweeps.length = 0
  · rw [if_pos h0] at hr
    simp at hr
  · rw [if_neg h0] at hr
    obtain ⟨⟨i, sw⟩, hmem, hps⟩ := List.mem_filterMap.1 hr
    have hi : sweeps[i]? = some sw := List.mk_mem_enum_iff_getElem?.1 hmem
    have hsweep : r.sweep = i := by
      simp only [processSweep] at hps
      split at hps
      · simp at hps
      · split at hps
        · rw [← Option.some.inj hps]
        · simp at hps
    rw [hsweep]
    exact ⟨sw, hi, hps⟩

/-- C10.  The `sweep` field of every returned insert record is the zero-based
enumeration position of the corresponding sweep within the input list: the
record is produced by `processSweep` applied to the sweep found at exactly
that list position.  It is NOT the sweep's own `sweep_number`: in the
concrete two-sweep instance the flagged sweep carries `sweep_number = 7` yet
is reported as sweep `0`, and reversing the (unchanged) sweeps makes the
report change to sweep `1`. -/
theorem detect_inserts_sweep_field :
    (∀ (npStd : List ℚ → ℚ) (sweeps : List SweepData) (bs be rs re f : ℚ)
      (r : InsertRecord), r ∈ detect_inserts npStd sweeps bs be rs re f →
      ∃ sw, sweeps[r.sweep]? = some sw ∧
        processSweep npStd bs be rs re f r.sweep sw = some r) ∧
    ((detect_inserts (fun _ => 0)
        [{ data := [0, 0, 10, 10], time := [0, 1, 2, 3], sweep_number := 7, channel := 0 },
         { data := [0, 0, 0, 0], time := [0, 1, 2, 3], sweep_number := 3, channel := 0 }]
        0 (1 / 2) (1 / 2) 1 3).map InsertRecord.sweep = [0]) ∧
    ((detect_inserts (fun _ => 0)
        [{ data := [0, 0, 0, 0], time := [0, 1, 2, 3], sweep_number := 3, channel := 0 },
         { data := [0, 0, 10, 10], time := [0, 1, 2, 3], sweep_number := 7, channel := 0 }]
        0 (1 / 2) (1 / 2) 1 3).map InsertRecord.sweep = [1]) ∧
    ({ data := [0, 0, 10, 10], time := [0, 1, 2, 3], sweep_number := 7,
       channel := 0 } : SweepData).sweep_number = 7 := by
  have ht0 : ((0 : ℤ)).toNat = 0 := rfl
  have ht2 : ((2 : ℤ)).toNat = 2 := rfl
  have ht4 : ((4 : ℤ)).toNat = 4 := rfl
  refine ⟨detect_inserts_mem, ?_, ?_, rfl⟩
  · norm_num [detect_inserts, processSweep, winLoIdx, winHiIdx, windowSlice, pyInt, npMean,
      npMax, npMin, List.enum, List.enumFrom, List.filterMap_cons, List.getD, min_def,
      max_def, ht0, ht2, ht4]
  · norm_num [detect_inserts, processSweep, winLoIdx, winHiIdx, windowSlice, pyInt, npMean,
      npMax, npMin, List.enum, List.enumFrom, List.filterMap_cons, List.getD, min_def,
      max_def, ht0, ht2, ht4]

/-- C10 witness: the universal part applied to the concrete two-sweep list,
at the record returned for the sweep in position 0. -/
theorem detect_inserts_sweep_field_witness :
    ∃ sw, ([{ data := [0, 0, 10, 10], time := [0, 1, 2, 3], sweep_number := 7, channel := 0 },
            { data := [0, 0, 0, 0], time := [0, 1, 2, 3], sweep_number := 3, channel := 0 }] :
        List SweepData)[(0 : ℕ)]? = some sw ∧
      processSweep (fun _ => 0) 0 (1 / 2) (1 / 2) 1 3 0 sw =
        some { sweep := 0, baseline_mean := 0, baseline_std := 0, response_mean := 10,
               response_max := 10, response_min := 10, deviation := 10 } := by
  have h := detect_inserts_sweep_field.1 (fun _ => 0)
    [{ data := [0, 0, 10, 10], time := [0, 1, 2, 3], sweep_number := 7, channel := 0 },
     { data := [0, 0, 0, 0], time := [0, 1, 2, 3], sweep_number := 3, channel := 0 }]
    0 (1 / 2) (1 / 2) 1 3
    { sweep := 0, baseline_mean := 0, baseline_std := 0, response_mean := 10,
      response_max := 10, response_min := 10, deviation := 10 }
    (by
      have ht0 : ((0 : ℤ)).toNat = 0 := rfl
      have ht2 : ((2 : ℤ)).toNat = 2 := rfl
      have ht4 : ((4 : ℤ)).toNat = 4 := rfl
      norm_num [detect_inserts, processSweep, winLoIdx, winHiIdx, windowSlice, pyInt, npMean,
        npMax, npMin, List.enum, List.enumFrom, List.filterMap_cons, List.getD, min_def,
        max_def, ht0, ht2, ht4])
  simpa using h

theorem list_map_sum_eq_range_sum (g : ℚ → ℚ) :
    ∀ l : List ℚ, (l.map g).sum = ∑ j ∈ Finset.range l.length, g (l.getD j 0) := by
  intro l
  induction l with
  | nil => simp
  | cons a t ih =>
    simp only [List.map_cons, List.sum_cons, List.length_cons, ih]
    rw [Finset.sum_range_succ']
    simp only [List.getD_cons_succ, List.getD_cons_zero]
    exact add_comm _ _

theorem foldl_max_mem : ∀ (t : List ℚ) (a : ℚ), t.foldl max a = a ∨ t.foldl max a ∈ t := by
  intro t
  induction t with
  | nil => intro a; exact Or.inl rfl
  | cons x r ih =>
    intro a
    rw [List.foldl_cons]
    rcases ih (max a x) with h | h
    · rcases max_choice a x with he | he
      · exact Or.inl (h.trans he)
      · refine Or.inr ?_
        rw [h, he]
        exact List.mem_cons_self _ _
    · exact Or.inr (List.mem_cons_of_mem _ h)

theorem foldl_min_mem : ∀ (t : List ℚ) (a : ℚ), t.foldl min a = a ∨ t.foldl min a ∈ t := by
  intro t
  induction t with
  | nil => intro a; exact Or.inl rfl
  | cons x r ih =>
    intro a
    rw [List.foldl_cons]
    rcases ih (min a x) with h | h
    · rcases min_choice a x with he | he
      · exact Or.inl (h.trans he)
      · refine Or.inr ?_
        rw [h, he]
        exact List.mem_cons_self _ _
    · exact Or.inr (List.mem_cons_of_mem _ h)

theorem npMax_mem (l : List ℚ) (h : l ≠ []) : npMax l ∈ l := by
  cases l with
  | nil => exact absurd rfl h
  | cons a t =>
    rw [npMax]
    rcases foldl_max_mem t a with h1 | h1
    · rw [h1]
      exact List.mem_cons_self _ _
    · exact List.mem_cons_of_mem _ h1

theorem npMin_mem (l : List ℚ) (h : l ≠ []) : npMin l ∈ l := by
  cases l with
  | nil => exact absurd rfl h
  | cons a t =>
    rw [npMin]
    rcases foldl_min_mem t a with h1 | h1
    · rw [h1]
      exact List.mem_cons_self _ _
    · exact List.mem_cons_of_mem _ h1

/-- Samuelson's inequality on lists: no sample deviates from the mean by
more than `sqrt (n - 1)` standard deviations; stated with a rational witness
`s` for the standard deviation (`s ^ 2 = npVar w`) and a factor `f` with
`n - 1 ≤ f ^ 2`, giving `|x - mean| ≤ f * s`. -/
theorem abs_sub_mean_le (w : List ℚ) (hw : w ≠ []) (x : ℚ) (hx : x ∈ w) (s f : ℚ)
    (hs : 0 ≤ s) (hs2 : s ^ 2 = npVar w) (hf : 0 ≤ f)
    (hfn : (w.length : ℚ) - 1 ≤ f ^ 2) :
    |x - npMean w| ≤ f * s := by
  have hnpos : 0 < w.length := List.length_pos.2 hw
  have hnQ : (w.length : ℚ) ≠ 0 := Nat.cast_ne_zero.mpr hnpos.ne'
  have hS : ∑ j ∈ Finset.range w.length, (w.getD j 0 - npMean w) ^ 2 =
      (w.length : ℚ) * npVar w := by
    rw [← list_map_sum_eq_range_sum (fun y => (y - npMean w) ^ 2) w, npVar]
    field_simp
  have hzero : ∑ j ∈ Finset.range w.length, (w.getD j 0 - npMean w) = 0 := by
    rw [← list_map_sum_eq_range_sum (fun y => y - npMean w) w]
    have h2 : (w.map fun y => y - npMean w) = w.map (· + (-npMean w)) := by
      congr 1
      funext y
      rw [sub_eq_add_neg]
    rw [h2, list_sum_map_add w (-(npMean w)), npMean]
    field_simp
    ring
  obtain ⟨j0, hj0n, hj0v⟩ : ∃ j0, j0 < w.length ∧ w.getD j0 0 = x := by
    obtain ⟨k, hk, hkv⟩ := List.mem_iff_getElem.1 hx
    exact ⟨k, hk, by rw [List.getD_eq_getElem _ _ hk]; exact hkv⟩
  have hj0mem : j0 ∈ Finset.range w.length := Finset.mem_range.2 hj0n
  have hadd1 := Finset.add_sum_erase (Finset.range w.length)
    (fun j => w.getD j 0 - npMean w) hj0mem
  have hadd2 := Finset.add_sum_erase (Finset.range w.length)
    (fun j => (w.getD j 0 - npMean w) ^ 2) hj0mem
  simp only [] at hadd1 hadd2
  have herase_sum : ∑ j ∈ (Finset.range w.length).erase j0,
      (w.getD j 0 - npMean w) = -(w.getD j0 0 - npMean w) := by linarith
  have herase_sq : ∑ j ∈ (Finset.range w.length).erase j0,
      (w.getD j 0 - npMean w) ^ 2 = (w.length : ℚ) * npVar w -
        (w.getD j0 0 - npMean w) ^ 2 := by linarith
  have hcard : ((((Finset.range w.length).erase j0)).card : ℚ) = (w.length : ℚ) - 1 := by
    rw [Finset.card_erase_of_mem hj0mem, Finset.card_range]
    push_cast [Nat.cast_sub (Nat.one_le_iff_ne_zero.2 hnpos.ne')]
    ring
  have hCS := sq_sum_le_card_mul_sum_sq (s := (Finset.range w.length).erase j0)
    (f := fun j => w.getD j 0 - npMean w)
  simp only [] at hCS
  rw [herase_sum, herase_sq, hcard, ← hs2] at hCS
  have hd2 : (w.getD j0 0 - npMean w) ^ 2 ≤ ((w.length : ℚ) - 1) * s ^ 2 := by
    have hnQ1 : (0 : ℚ) < (w.length : ℚ) := by positivity
    nlinarith [hCS, sq_nonneg (w.getD j0 0 - npMean w), hnQ1]
  have hd2f : (w.getD j0 0 - npMean w) ^ 2 ≤ (f * s) ^ 2 := by
    calc (w.getD j0 0 - npMean w) ^ 2 ≤ ((w.length : ℚ) - 1) * s ^ 2 := hd2
    _ ≤ f ^ 2 * s ^ 2 := mul_le_mul_of_nonneg_right hfn (sq_nonneg s)
    _ = (f * s) ^ 2 := by ring
  have hres := abs_le_of_sq_le_sq hd2f (mul_nonneg hf hs)
  rw [hj0v] at hres
  exact hres

/-- C4 (amended).  If the baseline and response windows of a sweep select the
identical index slice, `detect_inserts` never flags that sweep PROVIDED the
squared threshold factor is at least the window length minus one (so the
claim as stated, for every threshold factor, is false: by Samuelson's
inequality a sample can deviate from the mean by up to `sqrt (n - 1)`
standard deviations, and the counterexample exploits exactly that).  The
hypothesis on `npStd` pins the oracle to the true standard deviation of the
window. -/
theorem detect_inserts_identical_window_safe (npStd : List ℚ → ℚ) (sweeps : List SweepData)
    (bs be rs re f : ℚ) (i : ℕ) (sw : SweepData)
    (hget : sweeps[i]? = some sw)
    (hlo : winLoIdx sw bs = winLoIdx sw rs)
    (hhi : winHiIdx sw be = winHiIdx sw re)
    (hf : 0 ≤ f)
    (hstd0 : 0 ≤ npStd (windowSlice sw.data (winLoIdx sw bs) (winHiIdx sw be)))
    (hstd2 : npStd (windowSlice sw.data (winLoIdx sw bs) (winHiIdx sw be)) ^ 2 =
      npVar (windowSlice sw.data (winLoIdx sw bs) (winHiIdx sw be)))
    (hfn : ((windowSlice sw.data (winLoIdx sw bs) (winHiIdx sw be)).length : ℚ) - 1 ≤ f ^ 2) :
    ∀ r ∈ detect_inserts npStd sweeps bs be rs re f, r.sweep ≠ i := by
  intro r hr hri
  obtain ⟨sw2, hget2, hps⟩ := detect_inserts_mem npStd sweeps bs be rs re f r hr
  rw [hri, hget] at hget2
  have hsw : sw = sw2 := by injection hget2
  subst hsw
  rw [hri] at hps
  have hnone : processSweep npStd bs be rs re f i sw = none := by
    simp only [processSweep]
    rw [← hlo, ← hhi]
    by_cases hc : winHiIdx sw be ≤ winLoIdx sw bs
    · rw [if_pos (Or.inl hc)]
    · rw [if_neg (fun h => hc (h.elim id id))]
      push_neg at hc
      have hlo0 : (0 : ℤ) ≤ winLoIdx sw bs := le_max_left 0 _
      have hhile : winHiIdx sw be ≤ (sw.data.length : ℤ) := min_le_left _ _
      have hwne : windowSlice sw.data (winLoIdx sw bs) (winHiIdx sw be) ≠ [] := by
        rw [windowSlice]
        intro hnil
        have hlen := congrArg List.length hnil
        simp only [List.length_take, List.length_drop, List.length_nil] at hlen
        omega
      have hmax := abs_sub_mean_le _ hwne
        (npMax (windowSlice sw.data (winLoIdx sw bs) (winHiIdx sw be)))
        (npMax_mem _ hwne) _ f hstd0 hstd2 hf hfn
      have hmin := abs_sub_mean_le _ hwne
        (npMin (windowSlice sw.data (winLoIdx sw bs) (winHiIdx sw be)))
        (npMin_mem _ hwne) _ f hstd0 hstd2 hf hfn
      rw [if_neg]
      push_neg
      calc max (|npMax (windowSlice sw.data (winLoIdx sw bs) (winHiIdx sw be)) -
              npMean (windowSlice sw.data (winLoIdx sw bs) (winHiIdx sw be))|)
            (|npMin (windowSlice sw.data (winLoIdx sw bs) (winHiIdx sw be)) -
              npMean (windowSlice sw.data (winLoIdx sw bs) (winHiIdx sw be))|)
          ≤ f * npStd (windowSlice sw.data (winLoIdx sw bs) (winHiIdx sw be)) :=
            max_le hmax hmin
        _ ≤ |npMean (windowSlice sw.data (winLoIdx sw bs) (winHiIdx sw be))| +
              f * npStd (windowSlice sw.data (winLoIdx sw bs) (winHiIdx sw be)) :=
            le_add_of_nonneg_left (abs_nonneg _)
  rw [hnone] at hps
  exact Option.noConfusion hps

/-- C4 counterexample.  A 17-sample sweep whose baseline and response windows
are BOTH the whole array (fractions 0 and 1) IS flagged with the default-like
factor 3: the single outlier 17 among sixteen zeros deviates from the mean 1
by 16, which exceeds `|1| + 3 * 4 = 13` (the true standard deviation of the
window is exactly 4, as the second conjunct verifies, so the constant oracle
4 agrees with `np.std` on the only window evaluated).  The claim that
identical windows can never be flagged is therefore false. -/
theorem detect_inserts_identical_window_cex :
    detect_inserts (fun _ => 4)
      [{ data := [17, 0, 0, 0, 0, 0, 0, 0, 0, 0, 0, 0, 0, 0, 0, 0, 0], time := [0],
         sweep_number := 0, channel := 0 }] 0 1 0 1 3 =
      [{ sweep := 0, baseline_mean := 1, baseline_std := 4, response_mean := 1,
         response_max := 17, response_min := 0, deviation := 16 }] ∧
    (4 : ℚ) ^ 2 = npVar [17, 0, 0, 0, 0, 0, 0, 0, 0, 0, 0, 0, 0, 0, 0, 0, 0] := by
  have ht0 : ((0 : ℤ)).toNat = 0 := rfl
  have ht17 : ((17 : ℤ)).toNat = 17 := rfl
  constructor
  · norm_num [detect_inserts, processSweep, winLoIdx, winHiIdx, windowSlice, pyInt, npMean,
      npMax, npMin, List.enum, List.enumFrom, List.filterMap_cons, List.getD, min_def,
      max_def, ht0, ht17, abs_rat_ite]
    simp
  · norm_num [npVar, npMean]

/-- C4 witness: the amended theorem applied to a two-sweep list.  Sweep 0 has
identical whole-array windows of 4 samples, true standard deviation 5, and
factor 2 satisfies `2 ^ 2 ≥ 4 - 1`, so no record may carry sweep index 0;
the record actually returned (for the 17-sample outlier sweep in position 1,
whose window standard deviation is 4) indeed has a different index. -/
theorem detect_inserts_identical_window_safe_witness :
    ({ sweep := 1, baseline_mean := 1, baseline_std := 4, response_mean := 1,
       response_max := 17, response_min := 0, deviation := 16 } : InsertRecord).sweep ≠ 0 := by
  have ht0 : ((0 : ℤ)).toNat = 0 := rfl
  have ht4 : ((4 : ℤ)).toNat = 4 := rfl
  have ht17 : ((17 : ℤ)).toNat = 17 := rfl
  have h := detect_inserts_identical_window_safe
    (fun l => if l.length = 17 then 4 else 5)
    [{ data := [0, 0, 10, 10], time := [0], sweep_number := 5, channel := 0 },
     { data := [17, 0, 0, 0, 0, 0, 0, 0, 0, 0, 0, 0, 0, 0, 0, 0, 0], time := [0],
       sweep_number := 6, channel := 0 }]
    0 1 0 1 2 0
    { data := [0, 0, 10, 10], time := [0], sweep_number := 5, channel := 0 }
    rfl rfl rfl (by norm_num)
    (by norm_num [windowSlice, winLoIdx, winHiIdx, pyInt, ht0, ht4])
    (by norm_num [windowSlice, winLoIdx, winHiIdx, pyInt, npVar, npMean, ht0, ht4])
    (by norm_num [windowSlice, winLoIdx, winHiIdx, pyInt, ht0, ht4])
  refine h _ ?_
  norm_num [detect_inserts, processSweep, winLoIdx, winHiIdx, windowSlice,
    pyInt, npMean, npMax, npMin, List.enum, List.enumFrom, List.filterMap_cons, List.getD,
    min_def, max_def, ht0, ht4, ht17, abs_rat_ite]
  simp
